import Mathlib

/-
Verification of the dual-basis polynomial algebra library in
src/common_util/poly.py (classes Basis, Polynomial, InterpolationPoly).

Modelling conventions:
* The external field type Scalar (src/common_util/curve.py, not included in
  the sources) is modelled from the spec as an arbitrary field F with
  decidable equality.  The spec requires exact field arithmetic, so the
  integer-mod-p arithmetic used inside the Python FFT (performed on the
  underlying integer representation and reduced mod field_modulus) is
  modelled directly by the field operations of F, which the spec states is
  semantically identical.
* The Python class Polynomial is modelled by the structure Poly below (the
  name Polynomial is taken by Mathlib's polynomials, which we use as the
  semantic domain).  Method names are kept.
* Python assertions and raised exceptions (AssertionError, ZeroDivisionError,
  ValueError, IndexError) make a call fail; fallible operations therefore
  return Option, with none meaning the Python call raises.
* numpy: the polynomial helpers polyadd / polymul (np.convolve) / polydiv
  operate on coefficient lists (lowest degree first); as_series trims
  trailing zero coefficients from the inputs and raises on an empty input,
  and trimseq trims trailing zeros of results keeping at least one entry.
  These are embedded below, including the synthetic-division loop of
  numpy's polydiv.
-/

set_option linter.unusedSectionVars false

namespace PolyPy

/-- Basis enum of poly.py: LAGRANGE (evaluation form) or MONOMIAL
(coefficient form). -/
inductive Basis
  | LAGRANGE
  | MONOMIAL
deriving DecidableEq, Repr

/-- Python class Polynomial: an ordered sequence of Scalars tagged with a
basis.  The equality test of the source compares basis and values, which is
exactly structural equality here. -/
structure Poly (F : Type) where
  values : List F
  basis : Basis
deriving DecidableEq, Repr

variable {F : Type} [Field F] [DecidableEq F]

/-- numpy.polynomial.polyutils.trimseq: remove trailing zero coefficients,
keeping at least the first entry; the empty list is returned unchanged. -/
def trimseq (l : List F) : List F :=
  if l = [] then []
  else
    let t := (l.reverse.dropWhile (fun x => x = 0)).reverse
    if t = [] then l.take 1 else t

/-- numpy polyadd on coefficient lists: as_series (raise on empty input,
trim trailing zeros), add with zero padding, trim the result. -/
def polyadd (c1 c2 : List F) : Option (List F) :=
  if c1 = [] ∨ c2 = [] then none
  else
    let d1 := trimseq c1
    let d2 := trimseq c2
    some (trimseq ((List.range (max d1.length d2.length)).map
      (fun k => d1.getD k 0 + d2.getD k 0)))

/-- np.convolve of two nonempty coefficient lists (full mode): entry k of
the result is the sum of c1[i]*c2[k-i]. -/
def convolve (c1 c2 : List F) : List F :=
  (List.range (c1.length + c2.length - 1)).map
    (fun k => ∑ i in Finset.range (k + 1), c1.getD i 0 * c2.getD (k - i) 0)

/-- numpy polymul on coefficient lists: as_series then convolution then
trimseq. -/
def polymul (c1 c2 : List F) : Option (List F) :=
  if c1 = [] ∨ c2 = [] then none
  else some (trimseq (convolve (trimseq c1) (trimseq c2)))

/-- One iteration of the synthetic-division loop of numpy polydiv:
c1[i:j] -= c2n*c1[j], where c2n is the divisor without its leading
coefficient, normalised by it. -/
def divStep (c2n c : List F) (i j : ℕ) : List F :=
  (List.range c.length).map (fun k =>
    if i ≤ k ∧ k < j then c.getD k 0 - c2n.getD (k - i) 0 * c.getD j 0
    else c.getD k 0)

/-- The while-loop of numpy polydiv, iterated a fixed number of times with
the indices i and j decremented each round. -/
def divLoop (c2n : List F) : ℕ → ℕ → ℕ → List F → List F
  | 0, _, _, c => c
  | s + 1, i, j, c => divLoop c2n s (i - 1) (j - 1) (divStep c2n c i j)

/-- numpy polydiv on coefficient lists: returns (quotient, remainder), or
none when as_series raises on an empty input or the trimmed divisor is the
zero polynomial (ZeroDivisionError). -/
def polydiv (c1 c2 : List F) : Option (List F × List F) :=
  if c1 = [] ∨ c2 = [] then none
  else
    let d1 := trimseq c1
    let d2 := trimseq c2
    if d2.getLastD 0 = 0 then none
    else
      let lc1 := d1.length
      let lc2 := d2.length
      if lc1 < lc2 then some ([0], d1)
      else if lc2 = 1 then some (d1.map (fun a => a / d2.getLastD 0), [0])
      else
        let scl := d2.getLastD 0
        let c2n := d2.dropLast.map (fun a => a / scl)
        let cfin := divLoop c2n (lc1 - lc2 + 1) (lc1 - lc2) (lc1 - 1) d1
        some ((cfin.drop (lc2 - 1)).map (fun a => a / scl),
              trimseq (cfin.take (lc2 - 1)))

/-- Polynomial.__add__ with a Polynomial argument: bases must match;
LAGRANGE adds pointwise over equal-length vectors, MONOMIAL uses numpy
polyadd. -/
def Poly.add (p q : Poly F) : Option (Poly F) :=
  if p.basis ≠ q.basis then none
  else
    match p.basis with
    | Basis.LAGRANGE =>
        if p.values.length ≠ q.values.length then none
        else some ⟨List.zipWith (· + ·) p.values q.values, p.basis⟩
    | Basis.MONOMIAL => (polyadd p.values q.values).map (fun r => ⟨r, p.basis⟩)

/-- Polynomial.__mul__ with a Polynomial argument: bases must match;
LAGRANGE multiplies pointwise over equal-length vectors, MONOMIAL uses
numpy polymul (coefficient convolution). -/
def Poly.mul (p q : Poly F) : Option (Poly F) :=
  if p.basis ≠ q.basis then none
  else
    match p.basis with
    | Basis.LAGRANGE =>
        if p.values.length ≠ q.values.length then none
        else some ⟨List.zipWith (· * ·) p.values q.values, p.basis⟩
    | Basis.MONOMIAL => (polymul p.values q.values).map (fun r => ⟨r, p.basis⟩)

/-- Polynomial.__mul__ with a Scalar argument: LAGRANGE scales every
evaluation, MONOMIAL convolves with the degree-0 polynomial [s]. -/
def Poly.mulScalar (p : Poly F) (s : F) : Option (Poly F) :=
  match p.basis with
  | Basis.LAGRANGE => some ⟨p.values.map (fun x => x * s), p.basis⟩
  | Basis.MONOMIAL => (polymul p.values [s]).map (fun r => ⟨r, p.basis⟩)

/-- Polynomial.__truediv__ with a Polynomial argument: bases must match;
LAGRANGE divides pointwise (ZeroDivisionError when some divisor entry is
zero), MONOMIAL runs numpy polydiv and then asserts the trimmed remainder
is exactly [0]. -/
def Poly.truediv (p q : Poly F) : Option (Poly F) :=
  if p.basis ≠ q.basis then none
  else
    match p.basis with
    | Basis.LAGRANGE =>
        if p.values.length ≠ q.values.length then none
        else if (0 : F) ∈ q.values then none
        else some ⟨List.zipWith (· / ·) p.values q.values, p.basis⟩
    | Basis.MONOMIAL =>
        (polydiv p.values q.values).bind (fun qr =>
          if qr.2 = [0] then some ⟨qr.1, p.basis⟩ else none)

/-- Polynomial.__truediv__ with a Scalar argument: LAGRANGE divides every
evaluation by the scalar, MONOMIAL calls numpy polydiv against [s] and
keeps only the quotient. -/
def Poly.divScalar (p : Poly F) (s : F) : Option (Poly F) :=
  match p.basis with
  | Basis.LAGRANGE =>
      if s = 0 then none else some ⟨p.values.map (fun x => x / s), p.basis⟩
  | Basis.MONOMIAL => (polydiv p.values [s]).map (fun qr => ⟨qr.1, p.basis⟩)

/-- Python slice l[k:] for a possibly negative int k (used by shift). -/
def pySliceFrom (l : List F) (k : ℤ) : List F :=
  if 0 ≤ k then l.drop k.toNat else l.drop (l.length - (-k).toNat)

/-- Python slice l[:k] for a possibly negative int k (used by shift). -/
def pySliceTo (l : List F) (k : ℤ) : List F :=
  if 0 ≤ k then l.take k.toNat else l.take (l.length - (-k).toNat)

/-- Polynomial.shift: LAGRANGE only, asserts k < len(values) (no lower
bound check), then returns values[k:] + values[:k]. -/
def Poly.shift (p : Poly F) (k : ℤ) : Option (Poly F) :=
  if p.basis ≠ Basis.LAGRANGE then none
  else if ¬ k < (p.values.length : ℤ) then none
  else some ⟨pySliceFrom p.values k ++ pySliceTo p.values k, p.basis⟩

/-- Modelled from the spec: Scalar.roots_of_unity(n) of the missing
src/common_util/curve.py, an ordered sequence of exactly n field elements
forming the cyclic subgroup of order n, with index 0 the multiplicative
identity and index 1 a fixed canonical generator ω of that subgroup; hence
the list of powers 1, ω, ω², ..., ω^(n-1).  The generator is a parameter
here. -/
def rootsOfUnity (ω : F) (n : ℕ) : List F :=
  List.ofFn (fun i : Fin n => ω ^ (i : ℕ))

/-- Python list slice l[::2] (every second element starting at index 0). -/
def evens : List F → List F
  | [] => []
  | [a] => [a]
  | a :: _ :: t => a :: evens t

/-- The inner recursive _fft of Polynomial.fft, with a structural fuel
argument standing for the recursion depth (the source recursion terminates
because the list halves each level; a length-0 input would not terminate in
the source and is never reached from fft).  Splits into even- and
odd-indexed halves, recurses with the halved root sequence, and combines
with out[i] = L[i] + R[i]*root[i], out[i+len(L)] = L[i] - R[i]*root[i],
the remaining slots of the output array keeping their initial value 0. -/
def fftRecFuel : ℕ → List F → List F → List F
  | 0, vals, _ => vals
  | fuel + 1, vals, roots =>
      if vals.length = 1 then vals
      else
        let L := fftRecFuel fuel (evens vals) (evens roots)
        let R := fftRecFuel fuel (evens (vals.drop 1)) (evens roots)
        let m := min L.length R.length
        (List.range vals.length).map (fun idx =>
          if idx < m then L.getD idx 0 + R.getD idx 0 * roots.getD idx 0
          else if L.length ≤ idx ∧ idx - L.length < m then
            L.getD (idx - L.length) 0 - R.getD (idx - L.length) 0 *
              roots.getD (idx - L.length) 0
          else 0)

/-- The _fft helper at its call sites, where the recursion depth is bounded
by the input length. -/
def fftRec (vals roots : List F) : List F :=
  fftRecFuel vals.length vals roots

/-- Polynomial.fft(inv): forward FFT (MONOMIAL to LAGRANGE) over the roots
of unity of the subgroup of size len(values); the inverse direction runs
the same transform over the root sequence [root 0] + reverse (roots 1..)
and scales by 1/len(values) (the Python Scalar(1)/len raises when the
length vanishes in the field; the claims below carry that hypothesis). -/
def Poly.fft (ω : F) (p : Poly F) (inv : Bool) : Option (Poly F) :=
  let roots := rootsOfUnity ω p.values.length
  if inv then
    if p.basis = Basis.LAGRANGE then
      some ⟨(fftRec p.values (roots.take 1 ++ (roots.drop 1).reverse)).map
              (fun x => x * ((1 : F) / (p.values.length : F))),
            Basis.MONOMIAL⟩
    else none
  else
    if p.basis = Basis.MONOMIAL then
      some ⟨fftRec p.values roots, Basis.LAGRANGE⟩
    else none

/-- Polynomial.ifft: fft with inv=True. -/
def Poly.ifft (ω : F) (p : Poly F) : Option (Poly F) :=
  p.fft ω true

/-- Polynomial.barycentric_eval: LAGRANGE only.  If x is one of the domain
roots return the stored value at its index (the Python membership test
compares the reduced integer representation, which is field equality);
otherwise apply the barycentric formula
(x^n - 1)/n * Σ values[i]*root[i]/(x - root[i]). -/
def Poly.barycentric_eval (ω : F) (p : Poly F) (x : F) : Option F :=
  if p.basis ≠ Basis.LAGRANGE then none
  else
    let order := p.values.length
    let roots := rootsOfUnity ω order
    if x ∈ roots then some (p.values.getD (roots.indexOf x) 0)
    else some ((x ^ order - 1) / (order : F) *
      (List.zipWith (fun v r => v * r / (x - r)) p.values roots).sum)

/-- The accumulation loop of Polynomial.coeff_eval: for each further
coefficient, update the running power of x and add coeff * x_pow. -/
def coeffEvalGo (x : F) : List F → F → F → F
  | [], _, result => result
  | c :: cs, xpow, result => coeffEvalGo x cs (xpow * x) (result + c * (xpow * x))

/-- Polynomial.coeff_eval: MONOMIAL only; evaluates the coefficient vector
at x starting from coeffs[0] (IndexError on an empty vector). -/
def Poly.coeff_eval (p : Poly F) (x : F) : Option F :=
  if p.basis ≠ Basis.MONOMIAL then none
  else
    match p.values with
    | [] => none
    | c :: cs => some (coeffEvalGo x cs 1 c)

namespace InterpolationPoly

/-- InterpolationPoly.root_poly: the MONOMIAL polynomial X - a. -/
def root_poly (a : F) : Poly F := ⟨[-a, 1], Basis.MONOMIAL⟩

/-- InterpolationPoly.const_poly: the MONOMIAL polynomial a. -/
def const_poly (a : F) : Poly F := ⟨[a], Basis.MONOMIAL⟩

/-- InterpolationPoly.vanishing_poly: the product of (X - X[i]) over the
sample points, accumulated by repeated MONOMIAL multiplication. -/
def vanishing_poly (X : List F) : Option (Poly F) :=
  X.foldlM (fun acc xi => acc.mul (root_poly xi)) (const_poly 1)

/-- InterpolationPoly.vanishing_poly_diff: the sum over i of
vanishing_poly() divided (exactly) by (X - X[i]). -/
def vanishing_poly_diff (X : List F) : Option (Poly F) := do
  let v ← vanishing_poly X
  X.foldlM (fun acc xi => do acc.add (← v.truediv (root_poly xi))) (const_poly 0)

/-- InterpolationPoly.lagrange_poly i: vanishing_poly() / (X - X[i]) /
vanishing_poly_diff().coeff_eval(X[i]). -/
def lagrange_poly (X : List F) (i : ℕ) : Option (Poly F) := do
  let v ← vanishing_poly X
  let vd ← vanishing_poly_diff X
  let vdi ← vd.coeff_eval (X.getD i 0)
  let q ← v.truediv (root_poly (X.getD i 0))
  q.divScalar vdi

/-- InterpolationPoly.poly: the interpolated polynomial, the sum over i of
lagrange_poly(i) * Y[i].  The constructor asserts len X = len Y; the claims
carry that hypothesis. -/
def poly (X Y : List F) : Option (Poly F) :=
  (List.range X.length).foldlM (fun acc i => do
    let L ← lagrange_poly X i
    let t ← L.mulScalar (Y.getD i 0)
    acc.add t) (const_poly 0)

end InterpolationPoly

/-- Semantic map from a coefficient list (lowest degree first) to a Mathlib
polynomial; the reference meaning of a MONOMIAL values vector. -/
noncomputable def toP (l : List F) : Polynomial F :=
  ∑ i in Finset.range l.length, Polynomial.C (l.getD i 0) * Polynomial.X ^ i

/-- The product of the linear factors X - a over a list of sample points;
the reference meaning of the vanishing polynomial. -/
noncomputable def prodLin (l : List F) : Polynomial F :=
  (l.map (fun a => Polynomial.X - Polynomial.C a)).prod

/-- The reference i-th Lagrange basis polynomial through the points of X:
the normalised product of the linear factors avoiding index i. -/
noncomputable def lagInterp (X : List F) (i : ℕ) : Polynomial F :=
  Polynomial.C (((prodLin (X.eraseIdx i)).eval (X.getD i 0))⁻¹) *
    prodLin (X.eraseIdx i)

/-- The toy field of the spec's concrete scenario has modulus 5. -/
instance : Fact (Nat.Prime 5) := ⟨by norm_num⟩

section Lemmas

open Polynomial

/-- Unfolding of getD through the partial index operator. -/
theorem getD_eq (l : List F) (k : ℕ) : l.getD k 0 = (l[k]?).getD 0 :=
  List.getD_eq_getElem?_getD l k 0

/-- getD inside the range is the indexed element. -/
theorem getD_of_lt (l : List F) (k : ℕ) (h : k < l.length) :
    l.getD k 0 = l.get ⟨k, h⟩ := by
  rw [getD_eq, List.getElem?_eq_getElem h]; rfl

/-- getD outside the range is the default. -/
theorem getD_of_le (l : List F) (k : ℕ) (h : l.length ≤ k) : l.getD k 0 = 0 := by
  rw [getD_eq, List.getElem?_eq_none h]; rfl

/-- getD of a map over List.range. -/
theorem getD_rangeMap (f : ℕ → F) (n k : ℕ) :
    ((List.range n).map f).getD k 0 = if k < n then f k else 0 := by
  by_cases h : k < n
  · rw [getD_of_lt _ _ (by simpa using h)]
    simp [h]
  · rw [getD_of_le _ _ (by simpa using Nat.le_of_not_lt h)]
    simp [h]

/-- getD of an ofFn list. -/
theorem getD_ofFn {n : ℕ} (f : Fin n → F) (k : ℕ) :
    (List.ofFn f).getD k 0 = if h : k < n then f ⟨k, h⟩ else 0 := by
  by_cases h : k < n
  · rw [getD_of_lt _ _ (by simpa using h)]
    simp [List.get_ofFn, h]
  · rw [getD_of_le _ _ (by simpa using Nat.le_of_not_lt h)]
    simp [h]

/-- getD of a mapped list inside the range. -/
theorem getD_map (g : F → F) (l : List F) (k : ℕ) (h : k < l.length) :
    (l.map g).getD k 0 = g (l.getD k 0) := by
  rw [getD_eq, getD_eq, List.getElem?_map, List.getElem?_eq_getElem h]
  rfl

/-- getD of a take. -/
theorem getD_take (l : List F) (m k : ℕ) :
    (l.take m).getD k 0 = if k < m then l.getD k 0 else 0 := by
  by_cases h : k < m
  · rw [getD_eq, getD_eq, List.getElem?_take_of_lt h, if_pos h]
  · rw [if_neg h]
    refine getD_of_le _ _ ?_
    rw [List.length_take]
    exact le_trans (Nat.min_le_left _ _) (Nat.le_of_not_lt h)

/-- getD of a drop. -/
theorem getD_drop (l : List F) (m k : ℕ) :
    (l.drop m).getD k 0 = l.getD (m + k) 0 := by
  rw [getD_eq, getD_eq, List.getElem?_drop]

/-- getD of an append, left side. -/
theorem getD_append_left (l l2 : List F) (k : ℕ) (h : k < l.length) :
    (l ++ l2).getD k 0 = l.getD k 0 := by
  rw [getD_eq, getD_eq, List.getElem?_append_left h]

/-- Coefficient extraction: the k-th coefficient of the semantic polynomial
of a list is its k-th entry. -/
theorem toP_coeff (l : List F) (k : ℕ) : (toP l).coeff k = l.getD k 0 := by
  unfold toP
  rw [Polynomial.finset_sum_coeff]
  simp only [Polynomial.coeff_C_mul, Polynomial.coeff_X_pow]
  by_cases h : k < l.length
  · rw [Finset.sum_eq_single k]
    · simp
    · intro b _ hb
      simp [Ne.symm hb]
    · intro hk
      exact absurd (Finset.mem_range.2 h) hk
  · rw [getD_of_le _ _ (Nat.le_of_not_lt h), Finset.sum_eq_zero]
    intro b hb
    have : b ≠ k := Nat.ne_of_lt (lt_of_lt_of_le (Finset.mem_range.1 hb) (Nat.le_of_not_lt h))
    simp [Ne.symm this]

/-- Two lists with the same getD profile have the same semantics. -/
theorem toP_eq_of_getD (l1 l2 : List F) (h : ∀ k, l1.getD k 0 = l2.getD k 0) :
    toP l1 = toP l2 := by
  apply Polynomial.ext
  intro k
  rw [toP_coeff, toP_coeff]
  exact h k

/-- Degree bound: the semantic polynomial of a list has degree below the
list length. -/
theorem toP_degree_lt (l : List F) : (toP l).degree < (l.length : ℕ) := by
  rw [Polynomial.degree_lt_iff_coeff_zero]
  intro m hm
  rw [toP_coeff]
  exact getD_of_le _ _ (by exact_mod_cast hm)

/-- The semantic polynomial of the empty list is zero. -/
theorem toP_nil : toP ([] : List F) = 0 := by
  unfold toP
  simp

/-- Evaluation of the semantic polynomial as a power sum. -/
theorem toP_eval (l : List F) (x : F) :
    (toP l).eval x = ∑ i in Finset.range l.length, l.getD i 0 * x ^ i := by
  unfold toP
  rw [Polynomial.eval_finset_sum]
  simp

/-- getD of an append, right side. -/
theorem getD_append_right (l l2 : List F) (k : ℕ) (h : l.length ≤ k) :
    (l ++ l2).getD k 0 = l2.getD (k - l.length) 0 := by
  rw [getD_eq, getD_eq, List.getElem?_append_right h]

/-- getD of an all-zero list is zero. -/
theorem getD_all_zero (l : List F) (h : ∀ x ∈ l, x = 0) (k : ℕ) : l.getD k 0 = 0 := by
  by_cases hk : k < l.length
  · rw [getD_of_lt _ _ hk]
    exact h _ (List.get_mem l k hk)
  · exact getD_of_le _ _ (Nat.le_of_not_lt hk)

/-- Structure of trimseq: the original list is the trimmed list followed by
zeros. -/
theorem trimseq_decompose (l : List F) (h : l ≠ []) :
    ∃ z, l = trimseq l ++ z ∧ ∀ x ∈ z, x = 0 := by
  unfold trimseq
  rw [if_neg h]
  by_cases ht : (l.reverse.dropWhile (fun x => x = 0)).reverse = []
  · rw [if_pos ht]
    have hz : ∀ x ∈ l, x = 0 := by
      intro x hx
      have h0 : l.reverse.dropWhile (fun x => decide (x = 0)) = [] := by
        simpa using congrArg List.reverse ht
      have := (List.dropWhile_eq_nil_iff).1 h0 x (List.mem_reverse.2 hx)
      simpa using this
    exact ⟨l.drop 1, (List.take_append_drop 1 l).symm,
      fun x hx => hz x (List.drop_subset 1 l hx)⟩
  · rw [if_neg ht]
    refine ⟨(l.reverse.takeWhile (fun x => x = 0)).reverse, ?_, ?_⟩
    · have := congrArg List.reverse
        (List.takeWhile_append_dropWhile (fun x => decide (x = 0)) l.reverse)
      rw [List.reverse_append, List.reverse_reverse] at this
      exact this.symm
    · intro x hx
      have := List.mem_takeWhile_imp (List.mem_reverse.1 hx)
      simpa using this

/-- trimseq does not change the getD profile. -/
theorem trimseq_getD (l : List F) (k : ℕ) : (trimseq l).getD k 0 = l.getD k 0 := by
  by_cases h : l = []
  · subst h; rfl
  · obtain ⟨z, hz, hz0⟩ := trimseq_decompose l h
    by_cases hk : k < (trimseq l).length
    · conv_rhs => rw [hz]
      rw [getD_append_left _ _ _ hk]
    · rw [getD_of_le _ _ (Nat.le_of_not_lt hk)]
      conv_rhs => rw [hz]
      rw [getD_append_right _ _ _ (Nat.le_of_not_lt hk)]
      exact (getD_all_zero z hz0 _).symm ▸ rfl

/-- trimseq preserves the semantic polynomial. -/
theorem toP_trimseq (l : List F) : toP (trimseq l) = toP l :=
  toP_eq_of_getD _ _ (trimseq_getD l)

/-- trimseq of a nonempty list is nonempty. -/
theorem trimseq_ne_nil (l : List F) (h : l ≠ []) : trimseq l ≠ [] := by
  unfold trimseq
  rw [if_neg h]
  by_cases ht : (l.reverse.dropWhile (fun x => x = 0)).reverse = []
  · rw [if_pos ht]
    cases l with
    | nil => exact absurd rfl h
    | cons a t => simp
  · rw [if_neg ht]
    exact ht

/-- trimseq never lengthens a list. -/
theorem trimseq_length_le (l : List F) : (trimseq l).length ≤ l.length := by
  by_cases h : l = []
  · subst h; simp [trimseq]
  · obtain ⟨z, hz, _⟩ := trimseq_decompose l h
    conv_rhs => rw [hz]
    simp

/-- A trimmed nonempty list is either the literal [0] (the zero polynomial)
or ends in a nonzero coefficient. -/
theorem trimseq_last_cases (l : List F) (h : l ≠ []) :
    trimseq l = [0] ∨ (trimseq l).getLastD 0 ≠ 0 := by
  unfold trimseq
  rw [if_neg h]
  by_cases ht : (l.reverse.dropWhile (fun x => x = 0)).reverse = []
  · rw [if_pos ht]
    left
    have h0 : l.reverse.dropWhile (fun x => decide (x = 0)) = [] := by
      simpa using congrArg List.reverse ht
    have hz : ∀ x ∈ l, x = 0 := by
      intro x hx
      have := (List.dropWhile_eq_nil_iff).1 h0 x (List.mem_reverse.2 hx)
      simpa using this
    cases l with
    | nil => exact absurd rfl h
    | cons a t =>
        have : a = 0 := hz a (List.mem_cons_self a t)
        simp [this]
  · rw [if_neg ht]
    right
    have hne : l.reverse.dropWhile (fun x => decide (x = 0)) ≠ [] := by
      intro hcon
      exact ht (by simp [hcon])
    have hhead := List.head_dropWhile_not (fun x => decide (x = 0)) l.reverse hne
    rw [List.getLastD_eq_getLast?, List.getLast?_reverse]
    rw [List.head?_eq_head hne]
    intro hcon
    simp only [Option.getD_some] at hcon
    rw [hcon] at hhead
    simp at hhead

/-- The semantic polynomial of a one-element list is a constant. -/
theorem toP_single (s : F) : toP [s] = Polynomial.C s := by
  unfold toP
  simp

/-- Dividing every entry by a scalar multiplies the semantics by its
inverse. -/
theorem toP_map_div (l : List F) (s : F) :
    toP (l.map (fun a => a / s)) = Polynomial.C s⁻¹ * toP l := by
  apply Polynomial.ext
  intro k
  rw [Polynomial.coeff_C_mul, toP_coeff, toP_coeff]
  by_cases hk : k < l.length
  · rw [getD_map _ _ _ hk, div_eq_mul_inv, mul_comm]
  · rw [getD_of_le _ _ (by simpa using Nat.le_of_not_lt hk),
      getD_of_le _ _ (Nat.le_of_not_lt hk), mul_zero]

/-- Semantics of the numpy convolution: list convolution is polynomial
multiplication. -/
theorem convolve_toP (c1 c2 : List F) : toP (convolve c1 c2) = toP c1 * toP c2 := by
  apply Polynomial.ext
  intro k
  rw [toP_coeff, Polynomial.coeff_mul, Finset.Nat.sum_antidiagonal_eq_sum_range_succ_mk]
  simp only [toP_coeff]
  unfold convolve
  rw [getD_rangeMap]
  by_cases hk : k < c1.length + c2.length - 1
  · rw [if_pos hk]
  · rw [if_neg hk]
    symm
    apply Finset.sum_eq_zero
    intro i hi
    have hik : i ≤ k := Nat.lt_succ_iff.1 (Finset.mem_range.1 hi)
    rcases Nat.lt_or_ge i c1.length with h | h
    · rw [getD_of_le c2 _ (by omega), mul_zero]
    · rw [getD_of_le c1 _ h, zero_mul]

/-- Semantics and success of numpy polyadd on nonempty inputs. -/
theorem polyadd_spec (c1 c2 : List F) (h1 : c1 ≠ []) (h2 : c2 ≠ []) :
    ∃ r, polyadd c1 c2 = some r ∧ r ≠ [] ∧ toP r = toP c1 + toP c2 := by
  unfold polyadd
  rw [if_neg (by simp [h1, h2])]
  have hlen : 0 < max (trimseq c1).length (trimseq c2).length := by
    have := trimseq_ne_nil c1 h1
    have hl : 0 < (trimseq c1).length := List.length_pos.2 this
    omega
  refine ⟨_, rfl, ?_, ?_⟩
  · apply trimseq_ne_nil
    intro hcon
    have hl := congrArg List.length hcon
    rw [List.length_nil, List.length_map, List.length_range] at hl
    omega
  · rw [toP_trimseq]
    apply Polynomial.ext
    intro k
    rw [toP_coeff, Polynomial.coeff_add, toP_coeff, toP_coeff, getD_rangeMap]
    by_cases hk : k < max (trimseq c1).length (trimseq c2).length
    · rw [if_pos hk, trimseq_getD, trimseq_getD]
    · rw [if_neg hk, ← trimseq_getD c1 k, ← trimseq_getD c2 k,
        getD_of_le _ _ (by omega), getD_of_le _ _ (by omega), add_zero]

/-- Semantics and success of numpy polymul on nonempty inputs. -/
theorem polymul_spec (c1 c2 : List F) (h1 : c1 ≠ []) (h2 : c2 ≠ []) :
    ∃ r, polymul c1 c2 = some r ∧ r ≠ [] ∧ toP r = toP c1 * toP c2 := by
  unfold polymul
  rw [if_neg (by simp [h1, h2])]
  have hl1 : 0 < (trimseq c1).length := List.length_pos.2 (trimseq_ne_nil c1 h1)
  have hl2 : 0 < (trimseq c2).length := List.length_pos.2 (trimseq_ne_nil c2 h2)
  refine ⟨_, rfl, ?_, ?_⟩
  · apply trimseq_ne_nil
    intro hcon
    have hlen := congrArg List.length hcon
    rw [List.length_nil] at hlen
    unfold convolve at hlen
    rw [List.length_map, List.length_range] at hlen
    omega
  · rw [toP_trimseq, convolve_toP, toP_trimseq, toP_trimseq]

/-- C3: in the toy field of modulus 5 with generator 2,
roots_of_unity(4) = [1, 2, 4, 3]; fft() of the MONOMIAL polynomial
[1,2,3,4] is the LAGRANGE polynomial [0,4,3,2], and ifft() of the LAGRANGE
polynomial [0,4,3,2] is the MONOMIAL polynomial [1,2,3,4]. -/
theorem claim_C3_concrete_scenario :
    rootsOfUnity (2 : ZMod 5) 4 = [1, 2, 4, 3] ∧
    Poly.fft (2 : ZMod 5) ⟨[1,2,3,4], Basis.MONOMIAL⟩ false =
      some ⟨[0,4,3,2], Basis.LAGRANGE⟩ ∧
    Poly.ifft (2 : ZMod 5) ⟨[0,4,3,2], Basis.LAGRANGE⟩ =
      some ⟨[1,2,3,4], Basis.MONOMIAL⟩ := by
  refine ⟨by decide, by decide, ?_⟩
  have h14 : (1 : ZMod 5) / (4 : ZMod 5) = 4 := by
    rw [div_eq_iff (by decide : (4 : ZMod 5) ≠ 0)]; decide
  have hlen : (((List.length ([0,4,3,2] : List (ZMod 5))) : ℕ) : ZMod 5) = 4 := by decide
  show Poly.fft (2 : ZMod 5) ⟨[0,4,3,2], Basis.LAGRANGE⟩ true = _
  simp only [Poly.fft, hlen, h14]
  decide

/-- C9: shift(k) on a LAGRANGE polynomial of length n with 0 ≤ k < n
succeeds and rotates the evaluation vector cyclically left by k (the entry
at index i becomes the old entry at index (i+k) mod n); shift(k) with
k ≥ n fails; shift on a MONOMIAL polynomial fails. -/
theorem claim_C9_shift (p : Poly F) (k : ℤ) :
    (p.basis = Basis.LAGRANGE → 0 ≤ k → k < (p.values.length : ℤ) →
      ∃ q, p.shift k = some q ∧ q.basis = Basis.LAGRANGE ∧
        q.values.length = p.values.length ∧
        ∀ i, i < p.values.length →
          q.values.getD i 0 = p.values.getD ((i + k.toNat) % p.values.length) 0) ∧
    ((p.values.length : ℤ) ≤ k → p.shift k = none) ∧
    (p.basis = Basis.MONOMIAL → p.shift k = none) := by
  refine ⟨?_, ?_, ?_⟩
  · intro hb hk0 hklt
    have htn : k.toNat ≤ p.values.length := by omega
    refine ⟨⟨p.values.drop k.toNat ++ p.values.take k.toNat, Basis.LAGRANGE⟩, ?_, rfl, ?_, ?_⟩
    · unfold Poly.shift
      rw [if_neg (by simp [hb]), if_neg (by simp [hklt])]
      unfold pySliceFrom pySliceTo
      rw [if_pos hk0, if_pos hk0, hb]
    · simp; omega
    · intro i hi
      have hrot : p.values.drop k.toNat ++ p.values.take k.toNat = p.values.rotate k.toNat :=
        (List.rotate_eq_drop_append_take htn).symm
      rw [hrot]
      have hi2 : i < (p.values.rotate k.toNat).length := by simpa using hi
      rw [getD_of_lt _ _ hi2, List.get_rotate]
      rw [getD_of_lt _ _ (Nat.mod_lt _ (by omega))]
  · intro hk
    unfold Poly.shift
    by_cases hb : p.basis = Basis.LAGRANGE
    · rw [if_neg (by simp [hb]), if_pos (by omega)]
    · rw [if_pos (by simp [hb])]
  · intro hb
    unfold Poly.shift
    rw [if_pos (by simp [hb])]

/-- Witness for C9 at the concrete LAGRANGE polynomial [1,2,3,4] over
ZMod 5 with k = 1, k = 9 and a MONOMIAL input. -/
theorem claim_C9_shift_witness :
    (∃ q, Poly.shift (⟨[1,2,3,4], Basis.LAGRANGE⟩ : Poly (ZMod 5)) 1 = some q ∧
      q.basis = Basis.LAGRANGE ∧ q.values.length = 4 ∧
      ∀ i, i < 4 → q.values.getD i 0 = ([1,2,3,4] : List (ZMod 5)).getD ((i + 1) % 4) 0) ∧
    Poly.shift (⟨[1,2,3,4], Basis.LAGRANGE⟩ : Poly (ZMod 5)) 9 = none ∧
    Poly.shift (⟨[1,2,3,4], Basis.MONOMIAL⟩ : Poly (ZMod 5)) 1 = none :=
  ⟨(claim_C9_shift _ 1).1 rfl (by decide) (by decide),
   (claim_C9_shift _ 9).2.1 (by decide),
   (claim_C9_shift _ 1).2.2 rfl⟩

/-- C10: shift(k) accepts negative k (only the upper bound is checked);
for -n ≤ k < 0 on a LAGRANGE polynomial of length n the call succeeds and
returns the same polynomial as shift(n + k), the cyclic right rotation by
the absolute value of k. -/
theorem claim_C10_shift_negative (p : Poly F) (k : ℤ) (hb : p.basis = Basis.LAGRANGE)
    (h1 : -(p.values.length : ℤ) ≤ k) (h2 : k < 0) :
    ∃ q, p.shift k = some q ∧ p.shift ((p.values.length : ℤ) + k) = some q := by
  refine ⟨⟨p.values.drop (p.values.length - (-k).toNat) ++
           p.values.take (p.values.length - (-k).toNat), Basis.LAGRANGE⟩, ?_, ?_⟩
  · unfold Poly.shift
    rw [if_neg (by simp [hb]), if_neg (by push_neg; omega)]
    unfold pySliceFrom pySliceTo
    rw [if_neg (by omega), if_neg (by omega), hb]
  · unfold Poly.shift
    rw [if_neg (by simp [hb]), if_neg (by push_neg; omega)]
    unfold pySliceFrom pySliceTo
    rw [if_pos (by omega), if_pos (by omega), hb]
    have : ((p.values.length : ℤ) + k).toNat = p.values.length - (-k).toNat := by omega
    rw [this]

/-- Witness for C10 at the concrete LAGRANGE polynomial [1,2,3,4] over
ZMod 5 with k = -1. -/
theorem claim_C10_shift_negative_witness :
    ∃ q, Poly.shift (⟨[1,2,3,4], Basis.LAGRANGE⟩ : Poly (ZMod 5)) (-1) = some q ∧
      Poly.shift (⟨[1,2,3,4], Basis.LAGRANGE⟩ : Poly (ZMod 5))
        (((([1,2,3,4] : List (ZMod 5)).length : ℤ)) + (-1)) = some q :=
  claim_C10_shift_negative _ (-1) rfl (by decide) (by decide)

/-- getLastD of a nonempty list as a getD at the last index. -/
theorem getLastD_eq_getD (l : List F) (h : l ≠ []) :
    l.getLastD 0 = l.getD (l.length - 1) 0 := by
  have hl : 0 < l.length := List.length_pos.2 h
  rw [List.getLastD_eq_getLast?, List.getLast?_eq_getLast l h,
    List.getLast_eq_getElem, getD_of_lt _ _ (by omega)]
  rfl

/-- A list whose trailing entry is nonzero has nonzero semantics. -/
theorem toP_ne_zero_of_last (l : List F) (h : l.getLastD 0 ≠ 0) : toP l ≠ 0 := by
  have hne : l ≠ [] := by
    intro hcon
    subst hcon
    exact h rfl
  intro hcon
  have h2 : (toP l).coeff (l.length - 1) = 0 := by rw [hcon]; simp
  rw [toP_coeff] at h2
  rw [getLastD_eq_getD l hne] at h
  exact h h2

/-- Degree of the semantics of a list with nonzero trailing entry. -/
theorem toP_degree_eq_of_last (l : List F) (h : l.getLastD 0 ≠ 0) :
    (toP l).degree = ((l.length - 1 : ℕ) : WithBot ℕ) := by
  have hne : l ≠ [] := by
    intro hcon; subst hcon; exact h rfl
  have hl : 0 < l.length := List.length_pos.2 hne
  apply le_antisymm
  · rw [Polynomial.degree_le_iff_coeff_zero]
    intro m hm
    have hm2 : l.length ≤ m := by
      have := hm
      rw [Nat.cast_lt] at this
      omega
    rw [toP_coeff]
    exact getD_of_le l m hm2
  · apply Polynomial.le_degree_of_ne_zero
    rw [toP_coeff]
    rw [getLastD_eq_getD l hne] at h
    exact h

/-- Splitting off the last coefficient of the semantics. -/
theorem toP_last_split (l : List F) (h : l ≠ []) :
    toP l = toP l.dropLast + Polynomial.C (l.getLastD 0) * Polynomial.X ^ (l.length - 1) := by
  have hl : 0 < l.length := List.length_pos.2 h
  apply Polynomial.ext
  intro k
  rw [Polynomial.coeff_add, toP_coeff, toP_coeff, Polynomial.coeff_C_mul,
    Polynomial.coeff_X_pow]
  rcases lt_trichotomy k (l.length - 1) with hk | hk | hk
  · rw [if_neg (by omega), mul_zero, add_zero, getD_eq, getD_eq,
      List.getElem?_dropLast, if_pos hk]
  · subst hk
    rw [if_pos rfl, mul_one,
      getD_of_le l.dropLast _ (by simp [List.length_dropLast]),
      getLastD_eq_getD l h, zero_add]
  · rw [if_neg (by omega), mul_zero, add_zero,
      getD_of_le l _ (by omega),
      getD_of_le l.dropLast _ (by simp [List.length_dropLast]; omega)]

/-- Splitting off the top coefficient of a take. -/
theorem toP_take_succ (c : List F) (j : ℕ) :
    toP (c.take (j + 1)) = toP (c.take j) + Polynomial.C (c.getD j 0) * Polynomial.X ^ j := by
  apply Polynomial.ext
  intro k
  rw [Polynomial.coeff_add, toP_coeff, toP_coeff, Polynomial.coeff_C_mul,
    Polynomial.coeff_X_pow, getD_take, getD_take]
  rcases lt_trichotomy k j with hk | hk | hk
  · rw [if_pos (by omega), if_pos hk, if_neg (by omega), mul_zero, add_zero]
  · subst hk
    rw [if_pos (by omega), if_neg (by omega), if_pos rfl, mul_one, zero_add]
  · rw [if_neg (by omega), if_neg (by omega), if_neg (by omega), mul_zero, add_zero]

/-- Length preservation of the synthetic-division step. -/
theorem divStep_length (c2n c : List F) (i j : ℕ) :
    (divStep c2n c i j).length = c.length := by
  unfold divStep
  rw [List.length_map, List.length_range]

/-- getD profile of the synthetic-division step. -/
theorem divStep_getD (c2n c : List F) (i j k : ℕ) :
    (divStep c2n c i j).getD k 0 =
      if k < c.length then
        (if i ≤ k ∧ k < j then c.getD k 0 - c2n.getD (k - i) 0 * c.getD j 0
         else c.getD k 0)
      else 0 := by
  unfold divStep
  rw [getD_rangeMap]

/-- Semantics of one synthetic-division step on the first j coefficients:
it subtracts the scaled divisor shifted by i. -/
theorem divStep_take_toP (d2 : List F) (hlast : d2.getLastD 0 ≠ 0) (hlc2 : 2 ≤ d2.length)
    (c : List F) (i j : ℕ) (hij : j = i + (d2.length - 1)) (hj : j < c.length) :
    toP ((divStep (d2.dropLast.map (fun a => a / d2.getLastD 0)) c i j).take j) =
      toP (c.take j) - Polynomial.C (c.getD j 0 / d2.getLastD 0) *
        (toP d2.dropLast * Polynomial.X ^ i) := by
  set scl := d2.getLastD 0 with hscl
  apply Polynomial.ext
  intro k
  rw [Polynomial.coeff_sub, toP_coeff, toP_coeff, Polynomial.coeff_C_mul,
    Polynomial.coeff_mul_X_pow', getD_take, getD_take]
  have hdl : d2.dropLast.length = d2.length - 1 := List.length_dropLast d2
  by_cases hk1 : k < j
  · rw [if_pos hk1, if_pos hk1, divStep_getD, if_pos (by omega)]
    by_cases hk2 : i ≤ k
    · rw [if_pos ⟨hk2, hk1⟩, if_pos hk2, toP_coeff]
      have hki : k - i < d2.dropLast.length := by omega
      rw [getD_map _ _ _ hki]
      field_simp
      ring
    · rw [if_neg (fun hcon => hk2 hcon.1), if_neg hk2, mul_zero, sub_zero]
  · rw [if_neg hk1, if_neg hk1]
    by_cases hk2 : i ≤ k
    · rw [if_pos hk2, toP_coeff, getD_of_le d2.dropLast _ (by omega), mul_zero, sub_zero]
    · rw [if_neg hk2, mul_zero, sub_zero]

/-- The single-step identity of the synthetic-division loop: subtracting
the scaled divisor at position j converts the top coefficient into a
quotient digit. -/
theorem divStep_identity (d2 : List F) (hlast : d2.getLastD 0 ≠ 0) (hlc2 : 2 ≤ d2.length)
    (c : List F) (i j : ℕ) (hij : j = i + (d2.length - 1)) (hj : j < c.length) :
    toP (c.take (j + 1)) =
      toP d2 * (Polynomial.C (c.getD j 0 / d2.getLastD 0) * Polynomial.X ^ i) +
        toP ((divStep (d2.dropLast.map (fun a => a / d2.getLastD 0)) c i j).take j) := by
  have hd2ne : d2 ≠ [] := by
    intro hcon
    rw [hcon] at hlc2
    simp at hlc2
  rw [divStep_take_toP d2 hlast hlc2 c i j hij hj, toP_take_succ]
  rw [toP_last_split d2 hd2ne]
  have hC : Polynomial.C (d2.getLastD 0) * Polynomial.C (c.getD j 0 / d2.getLastD 0) =
      Polynomial.C (c.getD j 0) := by
    rw [← Polynomial.C_mul, mul_comm, div_mul_cancel₀ _ hlast]
  have hX : (Polynomial.X : Polynomial F) ^ (d2.length - 1) * Polynomial.X ^ i =
      Polynomial.X ^ j := by
    rw [← pow_add]
    congr 1
    omega
  calc toP (c.take j) + Polynomial.C (c.getD j 0) * Polynomial.X ^ j
      = toP (c.take j) + (Polynomial.C (d2.getLastD 0) *
          Polynomial.C (c.getD j 0 / d2.getLastD 0)) *
            (Polynomial.X ^ (d2.length - 1) * Polynomial.X ^ i) := by rw [hC, hX]
    _ = (toP d2.dropLast + Polynomial.C (d2.getLastD 0) * Polynomial.X ^ (d2.length - 1)) *
          (Polynomial.C (c.getD j 0 / d2.getLastD 0) * Polynomial.X ^ i) +
          (toP (c.take j) - Polynomial.C (c.getD j 0 / d2.getLastD 0) *
            (toP d2.dropLast * Polynomial.X ^ i)) := by ring

/-- Invariant of the synthetic-division while-loop: running the remaining
iterations turns the processed positions into quotient digits while
preserving the positions above j, and the polynomial identity
dividend-so-far = divisor * quotient-digits + running-remainder holds. -/
theorem divLoop_run (d2 : List F) (hlast : d2.getLastD 0 ≠ 0) (hlc2 : 2 ≤ d2.length) :
    ∀ (i : ℕ) (c : List F) (j : ℕ), j = i + (d2.length - 1) → j < c.length →
    (divLoop (d2.dropLast.map (fun a => a / d2.getLastD 0)) (i + 1) i j c).length = c.length ∧
    (∀ k, j < k →
      (divLoop (d2.dropLast.map (fun a => a / d2.getLastD 0)) (i + 1) i j c).getD k 0 =
        c.getD k 0) ∧
    toP (c.take (j + 1)) =
      toP d2 * (∑ k in Finset.Ico (d2.length - 1) (j + 1),
        Polynomial.C
          ((divLoop (d2.dropLast.map (fun a => a / d2.getLastD 0)) (i + 1) i j c).getD k 0 /
            d2.getLastD 0) * Polynomial.X ^ (k - (d2.length - 1))) +
      toP ((divLoop (d2.dropLast.map (fun a => a / d2.getLastD 0)) (i + 1) i j c).take
        (d2.length - 1)) := by
  set scl := d2.getLastD 0 with hscl
  set c2n := d2.dropLast.map (fun a => a / scl) with hc2n
  intro i
  induction i with
  | zero =>
      intro c j hij hj
      have hrun : divLoop c2n (0 + 1) 0 j c = divStep c2n c 0 j := rfl
      rw [hrun]
      have hcj : (divStep c2n c 0 j).getD j 0 = c.getD j 0 := by
        rw [divStep_getD, if_pos hj, if_neg (by omega)]
      refine ⟨divStep_length c2n c 0 j, ?_, ?_⟩
      · intro k hk
        rw [divStep_getD]
        by_cases hkc : k < c.length
        · rw [if_pos hkc, if_neg (by omega)]
        · rw [if_neg hkc, getD_of_le c _ (Nat.le_of_not_lt hkc)]
      · have hsum : ∑ k in Finset.Ico (d2.length - 1) (j + 1),
            Polynomial.C ((divStep c2n c 0 j).getD k 0 / scl) *
              Polynomial.X ^ (k - (d2.length - 1)) =
            Polynomial.C (c.getD j 0 / scl) * Polynomial.X ^ 0 := by
          have hj2 : j + 1 = (d2.length - 1) + 1 := by omega
          rw [hj2, Finset.sum_Ico_eq_sum_range]
          simp only [Nat.add_sub_cancel_left, Finset.sum_range_one, Nat.add_zero, Nat.sub_self]
          rw [show d2.length - 1 = j from by omega, hcj]
        rw [hsum]
        have := divStep_identity d2 hlast hlc2 c 0 j (by omega) hj
        rw [this]
        congr 2
        rw [show j = d2.length - 1 from by omega]
  | succ i ih =>
      intro c j hij hj
      have hrun : divLoop c2n (i + 1 + 1) (i + 1) j c =
          divLoop c2n (i + 1) i (j - 1) (divStep c2n c (i + 1) j) := by
        show divLoop c2n (i + 1 + 1) (i + 1) j c =
          divLoop c2n (i + 1) (i + 1 - 1) (j - 1) (divStep c2n c (i + 1) j)
        rfl
      set cstep := divStep c2n c (i + 1) j with hcstep
      have hij2 : j - 1 = i + (d2.length - 1) := by omega
      have hjlen : j - 1 < cstep.length := by
        rw [hcstep, divStep_length]
        omega
      obtain ⟨ihlen, ihabove, ihmain⟩ := ih cstep (j - 1) hij2 hjlen
      rw [hrun]
      have hlen : (divLoop c2n (i + 1) i (j - 1) cstep).length = c.length := by
        rw [ihlen, hcstep, divStep_length]
      have habove : ∀ k, j < k →
          (divLoop c2n (i + 1) i (j - 1) cstep).getD k 0 = c.getD k 0 := by
        intro k hk
        rw [ihabove k (by omega), hcstep, divStep_getD]
        by_cases hkc : k < c.length
        · rw [if_pos hkc, if_neg (by omega)]
        · rw [if_neg hkc, getD_of_le c _ (Nat.le_of_not_lt hkc)]
      refine ⟨hlen, habove, ?_⟩
      have hcj : (divLoop c2n (i + 1) i (j - 1) cstep).getD j 0 = c.getD j 0 := by
        rw [ihabove j (by omega), hcstep, divStep_getD, if_pos hj, if_neg (by omega)]
      have hstep := divStep_identity d2 hlast hlc2 c (i + 1) j hij hj
      have hj1 : j - 1 + 1 = j := by omega
      rw [hj1] at ihmain
      rw [hstep, ← hcstep, ihmain]
      have hsplit : ∑ k in Finset.Ico (d2.length - 1) (j + 1),
          Polynomial.C ((divLoop c2n (i + 1) i (j - 1) cstep).getD k 0 / scl) *
            Polynomial.X ^ (k - (d2.length - 1)) =
          (∑ k in Finset.Ico (d2.length - 1) j,
            Polynomial.C ((divLoop c2n (i + 1) i (j - 1) cstep).getD k 0 / scl) *
              Polynomial.X ^ (k - (d2.length - 1))) +
          Polynomial.C ((divLoop c2n (i + 1) i (j - 1) cstep).getD j 0 / scl) *
            Polynomial.X ^ (j - (d2.length - 1)) := by
        exact Finset.sum_Ico_succ_top (by omega) _
      rw [hsplit, hcj]
      have hXj : j - (d2.length - 1) = i + 1 := by omega
      rw [hXj]
      ring

/-- The semantics of a one-element coefficient list by index. -/
theorem toP_length_one (l : List F) (h : l.length = 1) : toP l = Polynomial.C (l.getD 0 0) := by
  unfold toP
  rw [h]
  simp

/-- Overall correctness of numpy polydiv on nonempty input with a nonzero
divisor: it succeeds and returns a quotient and trimmed remainder with
dividend = divisor * quotient + remainder and deg remainder < deg divisor. -/
theorem polydiv_spec (c1 c2 : List F) (h1 : c1 ≠ []) (h2 : c2 ≠ []) (h2z : toP c2 ≠ 0) :
    ∃ q r, polydiv c1 c2 = some (q, r) ∧ q ≠ [] ∧
      toP c1 = toP c2 * toP q + toP r ∧
      (toP r).degree < (toP c2).degree ∧
      (r = [0] ∨ r.getLastD 0 ≠ 0) := by
  have hd1ne : trimseq c1 ≠ [] := trimseq_ne_nil c1 h1
  have hd2ne : trimseq c2 ≠ [] := trimseq_ne_nil c2 h2
  have hd1pos : 0 < (trimseq c1).length := List.length_pos.2 hd1ne
  have hd2pos : 0 < (trimseq c2).length := List.length_pos.2 hd2ne
  have hd2last : (trimseq c2).getLastD 0 ≠ 0 := by
    rcases trimseq_last_cases c2 h2 with hc | hc
    · exfalso
      apply h2z
      rw [← toP_trimseq, hc, toP_single, map_zero]
    · exact hc
  have hd2deg : (toP c2).degree = (((trimseq c2).length - 1 : ℕ) : WithBot ℕ) := by
    rw [← toP_trimseq c2]
    exact toP_degree_eq_of_last _ hd2last
  unfold polydiv
  rw [if_neg (by simp [h1, h2])]
  simp only [if_neg hd2last]
  by_cases hb1 : (trimseq c1).length < (trimseq c2).length
  · rw [if_pos hb1]
    refine ⟨[0], trimseq c1, rfl, by simp, ?_, ?_, ?_⟩
    · rw [show toP ([0] : List F) = 0 from by rw [toP_single]; simp, mul_zero, zero_add,
        toP_trimseq]
    · calc (toP (trimseq c1)).degree < ((trimseq c1).length : WithBot ℕ) := toP_degree_lt _
        _ ≤ (((trimseq c2).length - 1 : ℕ) : WithBot ℕ) := by
              exact_mod_cast (by omega : (trimseq c1).length ≤ (trimseq c2).length - 1)
        _ = (toP c2).degree := hd2deg.symm
    · exact trimseq_last_cases c1 h1
  · rw [if_neg hb1]
    by_cases hb2 : (trimseq c2).length = 1
    · rw [if_pos hb2]
      refine ⟨_, [0], rfl, by simp [hd1ne], ?_, ?_, Or.inl rfl⟩
      · rw [show toP ([0] : List F) = 0 from by rw [toP_single]; simp, add_zero,
          toP_map_div, ← toP_trimseq c2, toP_length_one _ hb2,
          show (trimseq c2).getD 0 0 = (trimseq c2).getLastD 0 from by
            rw [getLastD_eq_getD _ hd2ne, hb2],
          ← mul_assoc, ← Polynomial.C_mul, mul_inv_cancel₀ hd2last, Polynomial.C_1, one_mul,
          toP_trimseq]
      · rw [show toP ([0] : List F) = 0 from by rw [toP_single]; simp,
          Polynomial.degree_zero]
        exact Ne.bot_lt (fun hcon => h2z (Polynomial.degree_eq_bot.1 hcon))
    · rw [if_neg hb2]
      have hlc2 : 2 ≤ (trimseq c2).length := by omega
      have hlc1 : (trimseq c2).length ≤ (trimseq c1).length := Nat.le_of_not_lt hb1
      obtain ⟨hlen, _, hmain⟩ :=
        divLoop_run (trimseq c2) hd2last hlc2 ((trimseq c1).length - (trimseq c2).length)
          (trimseq c1) ((trimseq c1).length - 1) (by omega) (by omega)
      set cfin := divLoop
        ((trimseq c2).dropLast.map (fun a => a / (trimseq c2).getLastD 0))
        ((trimseq c1).length - (trimseq c2).length + 1)
        ((trimseq c1).length - (trimseq c2).length)
        ((trimseq c1).length - 1) (trimseq c1) with hcfin
    
      have htake : (trimseq c1).take ((trimseq c1).length - 1 + 1) = trimseq c1 := by
        rw [show (trimseq c1).length - 1 + 1 = (trimseq c1).length from by omega,
          List.take_length]
      rw [htake] at hmain
      refine ⟨(cfin.drop ((trimseq c2).length - 1)).map
          (fun a => a / (trimseq c2).getLastD 0),
        trimseq (cfin.take ((trimseq c2).length - 1)), rfl, ?_, ?_, ?_, ?_⟩
      · intro hcon
        have := congrArg List.length hcon
        rw [List.length_map, List.length_drop, hlen, List.length_nil] at this
        omega
      · rw [← toP_trimseq c1, ← toP_trimseq c2, hmain]
        refine congrArg₂ (· + ·) (congrArg _ ?_) (toP_trimseq _).symm
        rw [Finset.sum_Ico_eq_sum_range]
        have hql : ((cfin.drop ((trimseq c2).length - 1)).map
            (fun a => a / (trimseq c2).getLastD 0)).length =
            (trimseq c1).length - 1 + 1 - ((trimseq c2).length - 1) := by
          rw [List.length_map, List.length_drop, hlen]
          omega
        unfold toP
        rw [hql]
        apply Finset.sum_congr rfl
        intro t ht
        rw [Finset.mem_range] at ht
        have htl : t < (cfin.drop ((trimseq c2).length - 1)).length := by
          rw [List.length_drop, hlen]; omega
        rw [getD_map _ _ _ htl, getD_drop]
        congr 2
        omega
      · rw [toP_trimseq]
        have hdeg := toP_degree_lt (cfin.take ((trimseq c2).length - 1))
        have hlt : ((cfin.take ((trimseq c2).length - 1)).length : WithBot ℕ) ≤
            (((trimseq c2).length - 1 : ℕ) : WithBot ℕ) := by
          exact_mod_cast (by rw [List.length_take]; omega :
            (cfin.take ((trimseq c2).length - 1)).length ≤ (trimseq c2).length - 1)
        rw [hd2deg]
        exact lt_of_lt_of_le hdeg hlt
      · apply trimseq_last_cases
        intro hcon
        have := congrArg List.length hcon
        rw [List.length_take, hlen, List.length_nil] at this
        omega

/-- Exactness: the trimmed remainder of polydiv is [0] precisely when the
divisor divides the dividend. -/
theorem polydiv_exact_iff (c1 c2 : List F) (h1 : c1 ≠ []) (h2 : c2 ≠ []) (h2z : toP c2 ≠ 0)
    (q r : List F) (hqr : polydiv c1 c2 = some (q, r)) :
    r = [0] ↔ toP c2 ∣ toP c1 := by
  obtain ⟨q', r', hqr', _, hid, hdeg, hcases⟩ := polydiv_spec c1 c2 h1 h2 h2z
  rw [hqr] at hqr'
  obtain ⟨hq, hr⟩ := Prod.mk.injEq .. ▸ Option.some.inj hqr'
  subst hq
  subst hr
  constructor
  · intro hr0
    subst hr0
    rw [show toP ([0] : List F) = 0 from by rw [toP_single]; simp, add_zero] at hid
    exact Dvd.intro _ hid.symm
  · intro hdvd
    have hdr : toP c2 ∣ toP r := by
      have : toP r = toP c1 - toP c2 * toP q := by
        rw [hid]; ring
      rw [this]
      exact dvd_sub hdvd (Dvd.intro _ rfl)
    have hr0 : toP r = 0 := Polynomial.eq_zero_of_dvd_of_degree_lt hdr hdeg
    rcases hcases with hc | hc
    · exact hc
    · exact absurd hr0 (toP_ne_zero_of_last r hc)

/-- Success and semantics of MONOMIAL Polynomial division. -/
theorem truediv_monomial_spec (pv qv : List F) (h1 : pv ≠ []) (h2 : qv ≠ [])
    (h2z : toP qv ≠ 0) :
    ((∃ d, Poly.truediv ⟨pv, Basis.MONOMIAL⟩ ⟨qv, Basis.MONOMIAL⟩ = some d) ↔
      toP qv ∣ toP pv) ∧
    (∀ d, Poly.truediv ⟨pv, Basis.MONOMIAL⟩ ⟨qv, Basis.MONOMIAL⟩ = some d →
      d.basis = Basis.MONOMIAL ∧ d.values ≠ [] ∧ toP qv * toP d.values = toP pv) := by
  have hdef : Poly.truediv (⟨pv, Basis.MONOMIAL⟩ : Poly F) ⟨qv, Basis.MONOMIAL⟩ =
      (polydiv pv qv).bind
        (fun qr => if qr.2 = [0] then some ⟨qr.1, Basis.MONOMIAL⟩ else none) := rfl
  obtain ⟨q', r', hqr', hqne, hid, hdeg, hcases⟩ := polydiv_spec pv qv h1 h2 h2z
  have hiff := polydiv_exact_iff pv qv h1 h2 h2z q' r' hqr'
  constructor
  · constructor
    · rintro ⟨d, hd⟩
      rw [hdef, hqr'] at hd
      simp only [Option.some_bind] at hd
      by_cases hr0 : r' = [0]
      · exact hiff.1 hr0
      · rw [if_neg hr0] at hd
        exact absurd hd (by simp)
    · intro hdvd
      refine ⟨⟨q', Basis.MONOMIAL⟩, ?_⟩
      rw [hdef, hqr']
      simp only [Option.some_bind]
      rw [if_pos (hiff.2 hdvd)]
  · intro d hd
    rw [hdef, hqr'] at hd
    simp only [Option.some_bind] at hd
    by_cases hr0 : r' = [0]
    · rw [if_pos hr0] at hd
      obtain rfl := Option.some.inj hd
      refine ⟨rfl, hqne, ?_⟩
      subst hr0
      rw [show toP ([0] : List F) = 0 from by rw [toP_single]; simp, add_zero] at hid
      exact hid.symm
    · rw [if_neg hr0] at hd
      exact absurd hd (by simp)

/-- C7: dividing a MONOMIAL Polynomial by a nonzero MONOMIAL Polynomial
succeeds exactly when the divisor is a true factor of the dividend
(equivalently, the long-division remainder vanishes), and in that case the
result is the correct quotient: divisor times quotient equals dividend.  A
non-factor divisor makes the operation fail. -/
theorem claim_C7_exact_division (p q : Poly F) (hp : p.basis = Basis.MONOMIAL)
    (hq : q.basis = Basis.MONOMIAL) (h1 : p.values ≠ []) (h2 : q.values ≠ [])
    (h2z : toP q.values ≠ 0) :
    ((∃ d, p.truediv q = some d) ↔ toP q.values ∣ toP p.values) ∧
    (∀ d, p.truediv q = some d →
      d.basis = Basis.MONOMIAL ∧ toP q.values * toP d.values = toP p.values) := by
  obtain ⟨pv, pb⟩ := p
  obtain ⟨qv, qb⟩ := q
  subst hp
  subst hq
  obtain ⟨hiff, hsem⟩ := truediv_monomial_spec pv qv h1 h2 h2z
  exact ⟨hiff, fun d hd => ⟨(hsem d hd).1, (hsem d hd).2.2⟩⟩

/-- Witness for C7 over ZMod 5: dividing X² - 1 by the factor X - 1. -/
theorem claim_C7_exact_division_witness :
    ((∃ d, Poly.truediv (⟨[4,0,1], Basis.MONOMIAL⟩ : Poly (ZMod 5))
        ⟨[4,1], Basis.MONOMIAL⟩ = some d) ↔
      toP ([4,1] : List (ZMod 5)) ∣ toP ([4,0,1] : List (ZMod 5))) ∧
    (∀ d, Poly.truediv (⟨[4,0,1], Basis.MONOMIAL⟩ : Poly (ZMod 5))
        ⟨[4,1], Basis.MONOMIAL⟩ = some d →
      d.basis = Basis.MONOMIAL ∧
        toP ([4,1] : List (ZMod 5)) * toP d.values = toP ([4,0,1] : List (ZMod 5))) := by
  have h2z : toP ([4,1] : List (ZMod 5)) ≠ 0 := by
    intro hcon
    have h := toP_coeff ([4,1] : List (ZMod 5)) 1
    rw [hcon, Polynomial.coeff_zero] at h
    have hval : ([4,1] : List (ZMod 5)).getD 1 0 = 1 := by decide
    rw [hval] at h
    exact one_ne_zero h.symm
  exact claim_C7_exact_division _ _ rfl rfl (by decide) (by decide) h2z


/-- MONOMIAL Polynomial * Polynomial succeeds on nonempty inputs and
multiplies the semantics. -/
theorem mul_monomial_spec (pv qv : List F) (h1 : pv ≠ []) (h2 : qv ≠ []) :
    ∃ r, Poly.mul (⟨pv, Basis.MONOMIAL⟩ : Poly F) ⟨qv, Basis.MONOMIAL⟩ = some r ∧
      r.basis = Basis.MONOMIAL ∧ r.values ≠ [] ∧ toP r.values = toP pv * toP qv := by
  obtain ⟨r, hr, hne, hsem⟩ := polymul_spec pv qv h1 h2
  refine ⟨⟨r, Basis.MONOMIAL⟩, ?_, rfl, hne, hsem⟩
  show (polymul pv qv).map (fun r => (⟨r, Basis.MONOMIAL⟩ : Poly F)) = _
  rw [hr]
  rfl

/-- MONOMIAL Polynomial + Polynomial succeeds on nonempty inputs and adds
the semantics. -/
theorem add_monomial_spec (pv qv : List F) (h1 : pv ≠ []) (h2 : qv ≠ []) :
    ∃ r, Poly.add (⟨pv, Basis.MONOMIAL⟩ : Poly F) ⟨qv, Basis.MONOMIAL⟩ = some r ∧
      r.basis = Basis.MONOMIAL ∧ r.values ≠ [] ∧ toP r.values = toP pv + toP qv := by
  obtain ⟨r, hr, hne, hsem⟩ := polyadd_spec pv qv h1 h2
  refine ⟨⟨r, Basis.MONOMIAL⟩, ?_, rfl, hne, hsem⟩
  show (polyadd pv qv).map (fun r => (⟨r, Basis.MONOMIAL⟩ : Poly F)) = _
  rw [hr]
  rfl

/-- MONOMIAL Polynomial * Scalar succeeds on nonempty input and scales the
semantics. -/
theorem mulScalar_monomial_spec (pv : List F) (s : F) (h1 : pv ≠ []) :
    ∃ r, Poly.mulScalar (⟨pv, Basis.MONOMIAL⟩ : Poly F) s = some r ∧
      r.basis = Basis.MONOMIAL ∧ r.values ≠ [] ∧ toP r.values = toP pv * Polynomial.C s := by
  obtain ⟨r, hr, hne, hsem⟩ := polymul_spec pv [s] h1 (by simp)
  refine ⟨⟨r, Basis.MONOMIAL⟩, ?_, rfl, hne, ?_⟩
  · show (polymul pv [s]).map (fun r => (⟨r, Basis.MONOMIAL⟩ : Poly F)) = _
    rw [hr]
    rfl
  · rw [hsem, toP_single]

/-- MONOMIAL Polynomial / Scalar with a nonzero scalar succeeds on
nonempty input and multiplies the semantics by its inverse. -/
theorem divScalar_monomial_spec (pv : List F) (s : F) (h1 : pv ≠ []) (hs : s ≠ 0) :
    ∃ r, Poly.divScalar (⟨pv, Basis.MONOMIAL⟩ : Poly F) s = some r ∧
      r.basis = Basis.MONOMIAL ∧ r.values ≠ [] ∧
      toP r.values = Polynomial.C s⁻¹ * toP pv := by
  have hsz : toP [s] ≠ 0 := by
    rw [toP_single]
    intro hcon
    exact hs (Polynomial.C_eq_zero.1 hcon)
  obtain ⟨q, r, hqr, hqne, hid, hdeg, _⟩ := polydiv_spec pv [s] h1 (by simp) hsz
  refine ⟨⟨q, Basis.MONOMIAL⟩, ?_, rfl, hqne, ?_⟩
  · show (polydiv pv [s]).map (fun qr => (⟨qr.1, Basis.MONOMIAL⟩ : Poly F)) = _
    rw [hqr]
    rfl
  · have hdegC : (toP [s]).degree = 0 := by
      rw [toP_single]
      exact Polynomial.degree_C hs
    rw [hdegC] at hdeg
    have hr0 : toP r = 0 := by
      by_contra hcon
      exact absurd (lt_of_le_of_lt (Polynomial.zero_le_degree_iff.2 hcon) hdeg) (lt_irrefl _)
    rw [hr0, add_zero, toP_single] at hid
    rw [hid, ← mul_assoc, ← Polynomial.C_mul, inv_mul_cancel₀ hs, Polynomial.C_1, one_mul]

/-- prodLin of the empty list. -/
theorem prodLin_nil : prodLin ([] : List F) = 1 := by
  unfold prodLin
  simp

/-- prodLin of a cons. -/
theorem prodLin_cons (a : F) (t : List F) :
    prodLin (a :: t) = (Polynomial.X - Polynomial.C a) * prodLin t := by
  unfold prodLin
  simp

/-- The semantics of root_poly is the linear factor X - a. -/
theorem root_poly_toP (a : F) : toP ([-a, 1] : List F) = Polynomial.X - Polynomial.C a := by
  unfold toP
  simp [Finset.sum_range_succ]
  ring

/-- Evaluation of prodLin is the product of the differences. -/
theorem prodLin_eval (l : List F) (x : F) :
    (prodLin l).eval x = (l.map (fun a => x - a)).prod := by
  induction l with
  | nil => rw [prodLin_nil]; simp
  | cons a t ih => rw [prodLin_cons]; simp [ih]

/-- Pulling one linear factor out of prodLin. -/
theorem prodLin_erase (l : List F) (i : ℕ) (h : i < l.length) :
    prodLin l = (Polynomial.X - Polynomial.C (l.getD i 0)) * prodLin (l.eraseIdx i) := by
  induction l generalizing i with
  | nil => simp at h
  | cons a t ih =>
      cases i with
      | zero => rfl
      | succ i =>
          have hi : i < t.length := by simpa using h
          rw [show (a :: t).eraseIdx (i + 1) = a :: t.eraseIdx i from rfl,
            prodLin_cons, prodLin_cons, ih i hi,
            show (a :: t).getD (i + 1) 0 = t.getD i 0 from rfl]
          ring

/-- Degree bound for prodLin. -/
theorem prodLin_natDegree_le (l : List F) : (prodLin l).natDegree ≤ l.length := by
  induction l with
  | nil => rw [prodLin_nil]; simp
  | cons a t ih =>
      rw [prodLin_cons]
      calc (((Polynomial.X : Polynomial F) - Polynomial.C a) * prodLin t).natDegree ≤
            ((Polynomial.X : Polynomial F) - Polynomial.C a).natDegree + (prodLin t).natDegree :=
          Polynomial.natDegree_mul_le
        _ ≤ 1 + t.length := by
            exact add_le_add (Polynomial.natDegree_X_sub_C_le a) ih
        _ = (a :: t).length := by simp [Nat.add_comm]

/-- An entry at a position other than the erased one survives eraseIdx. -/
theorem getD_mem_eraseIdx (l : List F) (i k : ℕ) (hi : i < l.length) (hik : i ≠ k) :
    l.getD i 0 ∈ l.eraseIdx k := by
  induction l generalizing i k with
  | nil => simp at hi
  | cons a t ih =>
      cases k with
      | zero =>
          cases i with
          | zero => exact absurd rfl hik
          | succ i =>
              have hi2 : i < t.length := by simpa using hi
              show t.getD i 0 ∈ t
              rw [getD_of_lt t i hi2]
              exact List.get_mem t i hi2
      | succ k =>
          cases i with
          | zero => exact List.mem_cons_self a _
          | succ i =>
              have hi2 : i < t.length := by simpa using hi
              exact List.mem_cons_of_mem a (ih i k hi2 (fun hcon => hik (by rw [hcon])))

/-- In a duplicate-free list, the erased entry is gone. -/
theorem getD_not_mem_eraseIdx_self (l : List F) (hnd : l.Nodup) (i : ℕ) (hi : i < l.length) :
    l.getD i 0 ∉ l.eraseIdx i := by
  induction l generalizing i with
  | nil => simp at hi
  | cons a t ih =>
      obtain ⟨hat, htnd⟩ := List.nodup_cons.1 hnd
      cases i with
      | zero =>
          show a ∉ t
          exact hat
      | succ i =>
          have hi2 : i < t.length := by simpa using hi
          intro hcon
          rcases List.mem_cons.1 hcon with hcon1 | hcon2
          · apply hat
            show a ∈ t
            rw [show (a :: t).getD (i + 1) 0 = t.getD i 0 from rfl] at hcon1
            rw [← hcon1] at hat ⊢
            rw [getD_of_lt t i hi2]
            exact List.get_mem t i hi2
          · exact ih htnd i hi2 hcon2

/-- The product-rule identity: the derivative of a product of linear
factors is the sum of the products with one factor removed. -/
theorem derivative_prodLin (l : List F) :
    Polynomial.derivative (prodLin l) =
      ∑ i in Finset.range l.length, prodLin (l.eraseIdx i) := by
  induction l with
  | nil => rw [prodLin_nil]; simp
  | cons a t ih =>
      rw [prodLin_cons, Polynomial.derivative_mul, Polynomial.derivative_X_sub_C, ih,
        one_mul]
      rw [show (a :: t).length = t.length + 1 from rfl, Finset.sum_range_succ']
      simp only [show ∀ i, (a :: t).eraseIdx (i + 1) = a :: t.eraseIdx i from fun i => rfl,
        show (a :: t).eraseIdx 0 = t from rfl]
      rw [Finset.mul_sum]
      simp only [prodLin_cons]
      ring


/-- Closed form of the Horner accumulation loop of coeff_eval. -/
theorem coeffEvalGo_spec (x : F) (cs : List F) : ∀ (xpow result : F),
    coeffEvalGo x cs xpow result =
      result + ∑ i in Finset.range cs.length, cs.getD i 0 * (xpow * x ^ (i + 1)) := by
  induction cs with
  | nil => intro xpow result; simp [coeffEvalGo]
  | cons c cs ih =>
      intro xpow result
      show coeffEvalGo x cs (xpow * x) (result + c * (xpow * x)) = _
      rw [ih]
      rw [show (c :: cs).length = cs.length + 1 from rfl, Finset.sum_range_succ']
      simp only [List.getD_cons_succ, List.getD_cons_zero]
      have hsum : ∑ i in Finset.range cs.length, cs.getD i 0 * (xpow * x * x ^ (i + 1)) =
          ∑ i in Finset.range cs.length, cs.getD i 0 * (xpow * x ^ (i + 1 + 1)) := by
        apply Finset.sum_congr rfl
        intro i _
        ring
      rw [hsum]
      ring

/-- coeff_eval on a nonempty MONOMIAL Polynomial computes the evaluation
of its semantics. -/
theorem coeff_eval_spec (pv : List F) (hne : pv ≠ []) (x : F) :
    Poly.coeff_eval (⟨pv, Basis.MONOMIAL⟩ : Poly F) x = some ((toP pv).eval x) := by
  cases pv with
  | nil => exact absurd rfl hne
  | cons c cs =>
      show some (coeffEvalGo x cs 1 c) = some ((toP (c :: cs)).eval x)
      congr 1
      rw [coeffEvalGo_spec, toP_eval]
      rw [show (c :: cs).length = cs.length + 1 from rfl, Finset.sum_range_succ']
      simp only [List.getD_cons_succ, List.getD_cons_zero, pow_zero, mul_one, one_mul]
      ring

/-- The product accumulation of vanishing_poly over any suffix. -/
theorem vanishing_fold (t : List F) : ∀ (av : List F), av ≠ [] →
    ∃ v, t.foldlM (fun acc xi => acc.mul (InterpolationPoly.root_poly xi)) (⟨av, Basis.MONOMIAL⟩ : Poly F) =
        some v ∧
      v.basis = Basis.MONOMIAL ∧ v.values ≠ [] ∧
      toP v.values = toP av * prodLin t := by
  induction t with
  | nil =>
      intro av hne
      exact ⟨⟨av, Basis.MONOMIAL⟩, rfl, rfl, hne, by rw [prodLin_nil, mul_one]⟩
  | cons a t ih =>
      intro av hne
      obtain ⟨r, hr, hrb, hrne, hrsem⟩ := mul_monomial_spec av [-a, 1] hne (by simp)
      obtain ⟨rv, rb⟩ := r
      subst hrb
      obtain ⟨v, hv, hvb, hvne, hvsem⟩ := ih rv hrne
      refine ⟨v, ?_, hvb, hvne, ?_⟩
      · rw [List.foldlM_cons, show Poly.mul (⟨av, Basis.MONOMIAL⟩ : Poly F) (InterpolationPoly.root_poly a) =
          some ⟨rv, Basis.MONOMIAL⟩ from hr]
        simpa using hv
      · rw [hvsem, hrsem, root_poly_toP, prodLin_cons]
        ring

/-- vanishing_poly succeeds and its semantics is the product of the linear
factors over the sample points. -/
theorem vanishing_poly_spec (X : List F) :
    ∃ v, InterpolationPoly.vanishing_poly X = some v ∧
      v.basis = Basis.MONOMIAL ∧ v.values ≠ [] ∧ toP v.values = prodLin X := by
  obtain ⟨v, hv, hvb, hvne, hvsem⟩ := vanishing_fold X [1] (by simp)
  refine ⟨v, hv, hvb, hvne, ?_⟩
  rw [hvsem, toP_single, Polynomial.C_1, one_mul]


/-- Sum of a mapped list as an indexed range sum. -/
theorem sum_map_eq_sum_range (l : List F) (g : F → Polynomial F) :
    (l.map g).sum = ∑ i in Finset.range l.length, g (l.getD i 0) := by
  induction l with
  | nil => simp
  | cons a t ih =>
      rw [List.map_cons, List.sum_cons, ih,
        show (a :: t).length = t.length + 1 from rfl, Finset.sum_range_succ']
      simp only [List.getD_cons_succ, List.getD_cons_zero]
      ring

/-- Each linear factor of the sample points divides the vanishing product. -/
theorem lin_dvd_prodLin (l : List F) (a : F) (ha : a ∈ l) :
    (Polynomial.X - Polynomial.C a) ∣ prodLin l := by
  obtain ⟨i, hi⟩ := List.mem_iff_get.1 ha
  have hgd : l.getD (i : ℕ) 0 = a := by
    rw [getD_of_lt l _ i.isLt]
    exact hi
  rw [← hgd]
  exact Dvd.intro _ (prodLin_erase l i i.isLt).symm

/-- The accumulation of vanishing_poly_diff over any suffix of sample
points: every division succeeds and the result adds the exact quotients. -/
theorem diff_fold (vv : List F) (hvne : vv ≠ []) (t : List F)
    (hdvd : ∀ a ∈ t, (Polynomial.X - Polynomial.C a) ∣ toP vv) :
    ∀ (av : List F), av ≠ [] →
    ∃ d, t.foldlM (fun acc xi => do
          Poly.add acc (← Poly.truediv ⟨vv, Basis.MONOMIAL⟩ (InterpolationPoly.root_poly xi)))
        (⟨av, Basis.MONOMIAL⟩ : Poly F) = some d ∧
      d.basis = Basis.MONOMIAL ∧ d.values ≠ [] ∧
      toP d.values = toP av +
        (t.map (fun a => toP vv / (Polynomial.X - Polynomial.C a))).sum := by
  induction t with
  | nil =>
      intro av hne
      exact ⟨⟨av, Basis.MONOMIAL⟩, rfl, rfl, hne, by simp⟩
  | cons a t ih =>
      intro av hne
      have hlin : toP ([-a, 1] : List F) ≠ 0 := by
        rw [root_poly_toP]
        exact Polynomial.X_sub_C_ne_zero a
      obtain ⟨hiff, hsem⟩ := truediv_monomial_spec vv [-a, 1] hvne (by simp) hlin
      obtain ⟨q, hq⟩ := hiff.2 (by rw [root_poly_toP]; exact hdvd a (List.mem_cons_self a t))
      obtain ⟨hqb, hqne, hqsem⟩ := hsem q hq
      obtain ⟨qv, qb⟩ := q
      subst hqb
      obtain ⟨r, hr, hrb, hrne, hrsem⟩ := add_monomial_spec av qv hne hqne
      obtain ⟨rv, rb⟩ := r
      subst hrb
      obtain ⟨d, hd, hdb, hdne, hdsem⟩ := ih (fun b hb => hdvd b (List.mem_cons_of_mem a hb))
        rv hrne
      refine ⟨d, ?_, hdb, hdne, ?_⟩
      · rw [List.foldlM_cons]
        show (Poly.truediv ⟨vv, Basis.MONOMIAL⟩ (InterpolationPoly.root_poly a)).bind
            (fun x => Poly.add ⟨av, Basis.MONOMIAL⟩ x) >>= _ = some d
        rw [show Poly.truediv (⟨vv, Basis.MONOMIAL⟩ : Poly F) (InterpolationPoly.root_poly a) =
          some ⟨qv, Basis.MONOMIAL⟩ from hq]
        simp only [Option.some_bind]
        rw [show Poly.add (⟨av, Basis.MONOMIAL⟩ : Poly F) ⟨qv, Basis.MONOMIAL⟩ =
          some ⟨rv, Basis.MONOMIAL⟩ from hr]
        simpa using hd
      · rw [hdsem, hrsem, List.map_cons, List.sum_cons]
        have hqdiv : toP qv = toP vv / (Polynomial.X - Polynomial.C a) := by
          have h2 := hqsem
          rw [root_poly_toP] at h2
          rw [← h2, mul_div_cancel_left₀ _ (Polynomial.X_sub_C_ne_zero a)]
        rw [hqdiv]
        ring

/-- Full specification of vanishing_poly_diff: success, success of each
inner division, and the sum-of-quotients / derivative semantics. -/
theorem vanishing_poly_diff_spec (X : List F) :
    ∃ v d, InterpolationPoly.vanishing_poly X = some v ∧
      v.basis = Basis.MONOMIAL ∧ v.values ≠ [] ∧ toP v.values = prodLin X ∧
      InterpolationPoly.vanishing_poly_diff X = some d ∧
      d.basis = Basis.MONOMIAL ∧ d.values ≠ [] ∧
      (∀ i, i < X.length →
        ∃ q, Poly.truediv v (InterpolationPoly.root_poly (X.getD i 0)) = some q) ∧
      toP d.values =
        (X.map (fun a => toP v.values / (Polynomial.X - Polynomial.C a))).sum ∧
      toP d.values = Polynomial.derivative (toP v.values) := by
  obtain ⟨v, hv, hvb, hvne, hvsem⟩ := vanishing_poly_spec X
  have hdvd : ∀ a ∈ X, (Polynomial.X - Polynomial.C a) ∣ toP v.values := by
    intro a ha
    rw [hvsem]
    exact lin_dvd_prodLin X a ha
  obtain ⟨vv, vb⟩ := v
  subst hvb
  obtain ⟨d, hd, hdb, hdne, hdsem⟩ := diff_fold vv hvne X hdvd [0] (by simp)
  refine ⟨⟨vv, Basis.MONOMIAL⟩, d, hv, rfl, hvne, hvsem, ?_, hdb, hdne, ?_, ?_, ?_⟩
  · unfold InterpolationPoly.vanishing_poly_diff
    rw [hv]
    exact hd
  · intro i hi
    have hlin : toP ([-(X.getD i 0), 1] : List F) ≠ 0 := by
      rw [root_poly_toP]
      exact Polynomial.X_sub_C_ne_zero _
    obtain ⟨hiff, _⟩ := truediv_monomial_spec vv [-(X.getD i 0), 1] hvne (by simp) hlin
    exact hiff.2 (by rw [root_poly_toP]
                     exact hdvd _ (by rw [getD_of_lt X i hi]; exact List.get_mem X i hi))
  · rw [hdsem, show toP ([0] : List F) = 0 from by rw [toP_single]; simp, zero_add]
  · rw [hdsem, show toP ([0] : List F) = 0 from by rw [toP_single]; simp, zero_add]
    have hvv : toP vv = prodLin X := hvsem
    rw [hvv, sum_map_eq_sum_range, derivative_prodLin]
    apply Finset.sum_congr rfl
    intro i hi
    rw [Finset.mem_range] at hi
    rw [prodLin_erase X i hi]
    exact mul_div_cancel_left₀ _ (Polynomial.X_sub_C_ne_zero _)


/-- C8: for pairwise-distinct sample points, vanishing_poly_diff succeeds,
each of the n exact divisions of vanishing_poly by the linear factor
(X - X[i]) succeeds with zero remainder, and the result equals both the
sum of the exact quotients and the formal derivative of vanishing_poly. -/
theorem claim_C8_vanishing_poly_diff (X : List F) (hnd : X.Nodup) :
    ∃ v d, InterpolationPoly.vanishing_poly X = some v ∧
      InterpolationPoly.vanishing_poly_diff X = some d ∧
      (∀ i, i < X.length →
        ∃ q, Poly.truediv v (InterpolationPoly.root_poly (X.getD i 0)) = some q) ∧
      toP d.values =
        (X.map (fun a => toP v.values / (Polynomial.X - Polynomial.C a))).sum ∧
      toP d.values = Polynomial.derivative (toP v.values) := by
  obtain ⟨v, d, hv, _, _, _, hd, _, _, hdivs, hsum, hder⟩ := vanishing_poly_diff_spec X
  exact ⟨v, d, hv, hd, hdivs, hsum, hder⟩

/-- Witness for C8 at the distinct points [1,2] over ZMod 5. -/
theorem claim_C8_vanishing_poly_diff_witness :
    ∃ v d, InterpolationPoly.vanishing_poly ([1,2] : List (ZMod 5)) = some v ∧
      InterpolationPoly.vanishing_poly_diff ([1,2] : List (ZMod 5)) = some d ∧
      (∀ i, i < 2 →
        ∃ q, Poly.truediv v (InterpolationPoly.root_poly (([1,2] : List (ZMod 5)).getD i 0)) =
          some q) ∧
      toP d.values =
        (([1,2] : List (ZMod 5)).map
          (fun a => toP v.values / (Polynomial.X - Polynomial.C a))).sum ∧
      toP d.values = Polynomial.derivative (toP v.values) :=
  claim_C8_vanishing_poly_diff ([1,2] : List (ZMod 5)) (by decide)


/-- Derivative of the vanishing product evaluated at a sample point: only
the term omitting that point survives. -/
theorem derivative_prodLin_eval_at (X : List F) (i : ℕ) (hi : i < X.length) :
    (Polynomial.derivative (prodLin X)).eval (X.getD i 0) =
      (prodLin (X.eraseIdx i)).eval (X.getD i 0) := by
  rw [derivative_prodLin, Polynomial.eval_finset_sum]
  rw [Finset.sum_eq_single i]
  · intro k hk hki
    rw [prodLin_eval]
    have hmem : X.getD i 0 ∈ X.eraseIdx k := getD_mem_eraseIdx X i k hi (Ne.symm hki)
    have hmem2 := List.mem_map_of_mem (fun a => X.getD i 0 - a) hmem
    simp only [sub_self] at hmem2
    exact List.prod_eq_zero hmem2
  · intro hcon
    exact absurd (Finset.mem_range.2 hi) hcon

/-- For duplicate-free sample points the normalising denominator of the
i-th Lagrange basis polynomial is nonzero. -/
theorem prodLin_erase_eval_ne_zero (X : List F) (hnd : X.Nodup) (i : ℕ) (hi : i < X.length) :
    (prodLin (X.eraseIdx i)).eval (X.getD i 0) ≠ 0 := by
  rw [prodLin_eval]
  intro hcon
  rw [List.prod_eq_zero_iff] at hcon
  obtain ⟨a, ha, hz⟩ := List.mem_map.1 hcon
  have haeq : a = X.getD i 0 := (sub_eq_zero.1 hz).symm
  rw [haeq] at ha
  exact getD_not_mem_eraseIdx_self X hnd i hi ha

/-- Evaluation of the reference Lagrange basis polynomial at the sample
points: 1 at its own point, 0 elsewhere. -/
theorem lagInterp_eval (X : List F) (hnd : X.Nodup) (i j : ℕ) (hi : i < X.length)
    (hj : j < X.length) :
    (lagInterp X i).eval (X.getD j 0) = if j = i then 1 else 0 := by
  unfold lagInterp
  rw [Polynomial.eval_mul, Polynomial.eval_C]
  by_cases hij : j = i
  · subst hij
    rw [if_pos rfl, inv_mul_cancel₀ (prodLin_erase_eval_ne_zero X hnd j hj)]
  · rw [if_neg hij]
    have hmem : X.getD j 0 ∈ X.eraseIdx i := getD_mem_eraseIdx X j i hj hij
    have hz : (prodLin (X.eraseIdx i)).eval (X.getD j 0) = 0 := by
      rw [prodLin_eval]
      have hmem2 := List.mem_map_of_mem (fun a => X.getD j 0 - a) hmem
      simp only [sub_self] at hmem2
      exact List.prod_eq_zero hmem2
    rw [hz, mul_zero]

/-- lagrange_poly succeeds on duplicate-free points and computes the
reference Lagrange basis polynomial. -/
theorem lagrange_poly_spec (X : List F) (hnd : X.Nodup) (i : ℕ) (hi : i < X.length) :
    ∃ L, InterpolationPoly.lagrange_poly X i = some L ∧
      L.basis = Basis.MONOMIAL ∧ L.values ≠ [] ∧ toP L.values = lagInterp X i := by
  obtain ⟨v, d, hv, hvb, hvne, hvsem, hd, hdb, hdne, hdivs, _, hder⟩ :=
    vanishing_poly_diff_spec X
  obtain ⟨vv, vb⟩ := v
  subst hvb
  obtain ⟨dv, db⟩ := d
  subst hdb
  have hwne : (prodLin (X.eraseIdx i)).eval (X.getD i 0) ≠ 0 :=
    prodLin_erase_eval_ne_zero X hnd i hi
  have hdeval : Poly.coeff_eval (⟨dv, Basis.MONOMIAL⟩ : Poly F) (X.getD i 0) =
      some ((prodLin (X.eraseIdx i)).eval (X.getD i 0)) := by
    rw [coeff_eval_spec dv hdne]
    congr 1
    have h1 : toP dv = Polynomial.derivative (toP vv) := hder
    have h2 : toP vv = prodLin X := hvsem
    rw [h1, h2, derivative_prodLin_eval_at X i hi]
  have hlin : toP ([-(X.getD i 0), 1] : List F) ≠ 0 := by
    rw [root_poly_toP]
    exact Polynomial.X_sub_C_ne_zero _
  obtain ⟨q, hq⟩ := hdivs i hi
  obtain ⟨_, hsem⟩ := truediv_monomial_spec vv [-(X.getD i 0), 1] hvne (by simp) hlin
  obtain ⟨hqb, hqne, hqsem⟩ := hsem q hq
  obtain ⟨qv, qb⟩ := q
  subst hqb
  have hqsem2 : toP qv = prodLin (X.eraseIdx i) := by
    have h2 : toP ([-(X.getD i 0), 1] : List F) * toP qv = toP vv := hqsem
    rw [root_poly_toP] at h2
    have h3 : toP vv = (Polynomial.X - Polynomial.C (X.getD i 0)) * prodLin (X.eraseIdx i) := by
      have h4 : toP vv = prodLin X := hvsem
      rw [h4]
      exact prodLin_erase X i hi
    rw [h3] at h2
    exact mul_left_cancel₀ (Polynomial.X_sub_C_ne_zero _) h2
  obtain ⟨L, hL, hLb, hLne, hLsem⟩ :=
    divScalar_monomial_spec qv ((prodLin (X.eraseIdx i)).eval (X.getD i 0)) hqne hwne
  refine ⟨L, ?_, hLb, hLne, ?_⟩
  · unfold InterpolationPoly.lagrange_poly
    rw [hv, show InterpolationPoly.vanishing_poly_diff X = some ⟨dv, Basis.MONOMIAL⟩ from hd]
    show ((Poly.coeff_eval (⟨dv, Basis.MONOMIAL⟩ : Poly F) (X.getD i 0)).bind fun vdi =>
      (Poly.truediv ⟨vv, Basis.MONOMIAL⟩ (InterpolationPoly.root_poly (X.getD i 0))).bind
        fun q => q.divScalar vdi) = some L
    rw [hdeval, show Poly.truediv (⟨vv, Basis.MONOMIAL⟩ : Poly F)
        (InterpolationPoly.root_poly (X.getD i 0)) = some ⟨qv, Basis.MONOMIAL⟩ from hq]
    exact hL
  · rw [hLsem, hqsem2]
    rfl

/-- C6: for pairwise-distinct X and indices i, j below n, lagrange_poly(i)
succeeds, evaluates to 1 at X[i] via coeff_eval, and to 0 at X[j] for
j different from i. -/
theorem claim_C6_lagrange_orthogonality (X : List F) (hnd : X.Nodup) (i j : ℕ)
    (hi : i < X.length) (hj : j < X.length) :
    ∃ L, InterpolationPoly.lagrange_poly X i = some L ∧
      Poly.coeff_eval L (X.getD i 0) = some 1 ∧
      (j ≠ i → Poly.coeff_eval L (X.getD j 0) = some 0) := by
  obtain ⟨L, hL, hLb, hLne, hLsem⟩ := lagrange_poly_spec X hnd i hi
  obtain ⟨Lv, Lb⟩ := L
  subst hLb
  refine ⟨⟨Lv, Basis.MONOMIAL⟩, hL, ?_, ?_⟩
  · rw [coeff_eval_spec Lv hLne]
    congr 1
    have h1 : toP Lv = lagInterp X i := hLsem
    rw [h1, lagInterp_eval X hnd i i hi hi, if_pos rfl]
  · intro hij
    rw [coeff_eval_spec Lv hLne]
    congr 1
    have h1 : toP Lv = lagInterp X i := hLsem
    rw [h1, lagInterp_eval X hnd i j hi hj, if_neg hij]

/-- Witness for C6 at the points [1,2] over ZMod 5 with i = 0, j = 1. -/
theorem claim_C6_lagrange_orthogonality_witness :
    ∃ L, InterpolationPoly.lagrange_poly ([1,2] : List (ZMod 5)) 0 = some L ∧
      Poly.coeff_eval L (([1,2] : List (ZMod 5)).getD 0 0) = some 1 ∧
      (1 ≠ 0 → Poly.coeff_eval L (([1,2] : List (ZMod 5)).getD 1 0) = some 0) :=
  claim_C6_lagrange_orthogonality ([1,2] : List (ZMod 5)) (by decide) 0 1
    (by decide) (by decide)


/-- Sum of a function mapped over List.range as a Finset range sum. -/
theorem sum_map_range (n : ℕ) (g : ℕ → Polynomial F) :
    ((List.range n).map g).sum = ∑ i in Finset.range n, g i := by
  induction n with
  | zero => simp
  | succ n ih =>
      rw [List.range_succ, List.map_append, List.sum_append, Finset.sum_range_succ, ih]
      simp

/-- Degree bound for the reference Lagrange basis polynomial. -/
theorem lagInterp_natDegree_le (X : List F) (i : ℕ) (hi : i < X.length) :
    (lagInterp X i).natDegree ≤ X.length - 1 := by
  unfold lagInterp
  calc (Polynomial.C ((prodLin (X.eraseIdx i)).eval (X.getD i 0))⁻¹ *
        prodLin (X.eraseIdx i)).natDegree ≤ (prodLin (X.eraseIdx i)).natDegree :=
      Polynomial.natDegree_C_mul_le _ _
    _ ≤ (X.eraseIdx i).length := prodLin_natDegree_le _
    _ ≤ X.length - 1 := by rw [List.length_eraseIdx]; simp [hi]

/-- The accumulation loop of InterpolationPoly.poly over any index list. -/
theorem poly_fold (X Y : List F) (hnd : X.Nodup) (t : List ℕ) (ht : ∀ k ∈ t, k < X.length) :
    ∀ (av : List F), av ≠ [] →
    ∃ r, t.foldlM (fun acc i => do
          let L ← InterpolationPoly.lagrange_poly X i
          let s ← Poly.mulScalar L (Y.getD i 0)
          Poly.add acc s) (⟨av, Basis.MONOMIAL⟩ : Poly F) = some r ∧
      r.basis = Basis.MONOMIAL ∧ r.values ≠ [] ∧
      toP r.values = toP av +
        (t.map (fun i => lagInterp X i * Polynomial.C (Y.getD i 0))).sum := by
  induction t with
  | nil =>
      intro av hne
      exact ⟨⟨av, Basis.MONOMIAL⟩, rfl, rfl, hne, by simp⟩
  | cons k t ih =>
      intro av hne
      have hk : k < X.length := ht k (List.mem_cons_self k t)
      obtain ⟨L, hL, hLb, hLne, hLsem⟩ := lagrange_poly_spec X hnd k hk
      obtain ⟨Lv, Lb⟩ := L
      subst hLb
      obtain ⟨s, hs, hsb, hsne, hssem⟩ := mulScalar_monomial_spec Lv (Y.getD k 0) hLne
      obtain ⟨sv, sb⟩ := s
      subst hsb
      obtain ⟨r, hr, hrb, hrne, hrsem⟩ := add_monomial_spec av sv hne hsne
      obtain ⟨rv, rb⟩ := r
      subst hrb
      obtain ⟨d, hd, hdb, hdne, hdsem⟩ := ih (fun b hb => ht b (List.mem_cons_of_mem k hb))
        rv hrne
      refine ⟨d, ?_, hdb, hdne, ?_⟩
      · rw [List.foldlM_cons,
          show InterpolationPoly.lagrange_poly X k = some ⟨Lv, Basis.MONOMIAL⟩ from hL]
        show (Poly.mulScalar (⟨Lv, Basis.MONOMIAL⟩ : Poly F) (Y.getD k 0)).bind
            (fun s => Poly.add ⟨av, Basis.MONOMIAL⟩ s) >>= _ = some d
        rw [show Poly.mulScalar (⟨Lv, Basis.MONOMIAL⟩ : Poly F) (Y.getD k 0) =
            some ⟨sv, Basis.MONOMIAL⟩ from hs]
        simp only [Option.some_bind]
        rw [show Poly.add (⟨av, Basis.MONOMIAL⟩ : Poly F) ⟨sv, Basis.MONOMIAL⟩ =
            some ⟨rv, Basis.MONOMIAL⟩ from hr]
        simpa using hd
      · rw [hdsem, hrsem, hssem, List.map_cons, List.sum_cons]
        have h1 : toP Lv = lagInterp X k := hLsem
        rw [h1]
        ring

/-- C1: for pairwise-distinct X and equal-length Y, InterpolationPoly.poly
succeeds, returns a MONOMIAL polynomial of degree at most n-1, and its
coeff_eval at X[i] is Y[i] for every i below n. -/
theorem claim_C1_interpolation (X Y : List F) (hnd : X.Nodup) (hlen : X.length = Y.length) :
    ∃ r, InterpolationPoly.poly X Y = some r ∧ r.basis = Basis.MONOMIAL ∧
      (toP r.values).natDegree ≤ X.length - 1 ∧
      ∀ i, i < X.length → Poly.coeff_eval r (X.getD i 0) = some (Y.getD i 0) := by
  obtain ⟨r, hr, hrb, hrne, hrsem⟩ := poly_fold X Y hnd (List.range X.length)
    (fun k hk => List.mem_range.1 hk) [0] (by simp)
  have hsem : toP r.values = ∑ i in Finset.range X.length,
      lagInterp X i * Polynomial.C (Y.getD i 0) := by
    rw [hrsem, show toP ([0] : List F) = 0 from by rw [toP_single]; simp, zero_add,
      sum_map_range]
  refine ⟨r, hr, hrb, ?_, ?_⟩
  · rw [hsem]
    apply Polynomial.natDegree_sum_le_of_forall_le
    intro i hi
    rw [Finset.mem_range] at hi
    calc (lagInterp X i * Polynomial.C (Y.getD i 0)).natDegree ≤
          (lagInterp X i).natDegree + (Polynomial.C (Y.getD i 0)).natDegree :=
        Polynomial.natDegree_mul_le
      _ ≤ X.length - 1 + 0 := by
          exact add_le_add (lagInterp_natDegree_le X i hi) (le_of_eq (Polynomial.natDegree_C _))
      _ = X.length - 1 := by omega
  · intro j hj
    obtain ⟨rv, rb⟩ := r
    subst hrb
    rw [coeff_eval_spec rv hrne]
    congr 1
    have h1 : toP rv = ∑ i in Finset.range X.length,
        lagInterp X i * Polynomial.C (Y.getD i 0) := hsem
    rw [h1, Polynomial.eval_finset_sum]
    have h2 : ∀ i ∈ Finset.range X.length,
        (lagInterp X i * Polynomial.C (Y.getD i 0)).eval (X.getD j 0) =
          if j = i then Y.getD i 0 else 0 := by
      intro i hi
      rw [Finset.mem_range] at hi
      rw [Polynomial.eval_mul, Polynomial.eval_C, lagInterp_eval X hnd i j hi hj]
      by_cases hij : j = i
      · rw [if_pos hij, if_pos hij, one_mul]
      · rw [if_neg hij, if_neg hij, zero_mul]
    rw [Finset.sum_congr rfl h2, Finset.sum_ite_eq]
    rw [if_pos (Finset.mem_range.2 hj)]

/-- Witness for C1 at the points X = [1,2], Y = [3,4] over ZMod 5. -/
theorem claim_C1_interpolation_witness :
    ∃ r, InterpolationPoly.poly ([1,2] : List (ZMod 5)) ([3,4] : List (ZMod 5)) = some r ∧
      r.basis = Basis.MONOMIAL ∧
      (toP r.values).natDegree ≤ ([1,2] : List (ZMod 5)).length - 1 ∧
      ∀ i, i < ([1,2] : List (ZMod 5)).length →
        Poly.coeff_eval r (([1,2] : List (ZMod 5)).getD i 0) =
          some (([3,4] : List (ZMod 5)).getD i 0) :=
  claim_C1_interpolation ([1,2] : List (ZMod 5)) ([3,4] : List (ZMod 5)) (by decide) rfl


/-- Splitting a power sum over an even range into even- and odd-indexed
halves. -/
theorem sum_range_double (f : ℕ → F) (n : ℕ) :
    ∑ t in Finset.range (2 * n), f t =
      (∑ t in Finset.range n, f (2 * t)) + ∑ t in Finset.range n, f (2 * t + 1) := by
  induction n with
  | zero => simp
  | succ n ih =>
      rw [show 2 * (n + 1) = 2 * n + 1 + 1 from by ring, Finset.sum_range_succ,
        Finset.sum_range_succ, Finset.sum_range_succ, Finset.sum_range_succ, ih]
      ring

/-- Length of the even-index slice. -/
theorem evens_length : ∀ (l : List F), (evens l).length = (l.length + 1) / 2
  | [] => by simp [evens]
  | [a] => by simp [evens]
  | a :: b :: t => by
      rw [show evens (a :: b :: t) = a :: evens t from rfl]
      have ih := evens_length t
      rw [List.length_cons, ih]
      rw [show (a :: b :: t).length = t.length + 2 from rfl]
      omega

/-- getD profile of the even-index slice. -/
theorem evens_getD : ∀ (l : List F) (k : ℕ), (evens l).getD k 0 = l.getD (2 * k) 0
  | [], k => by simp [evens]
  | [a], k => by
      cases k with
      | zero => rfl
      | succ k =>
          rw [show evens [a] = [a] from rfl]
          rw [getD_of_le [a] (k + 1) (by simp), getD_of_le [a] (2 * (k + 1)) (by simp; omega)]
  | a :: b :: t, k => by
      cases k with
      | zero => rfl
      | succ k =>
          rw [show evens (a :: b :: t) = a :: evens t from rfl]
          rw [show (2 : ℕ) * (k + 1) = 2 * k + 1 + 1 from by ring]
          rw [List.getD_cons_succ, List.getD_cons_succ, List.getD_cons_succ]
          exact evens_getD t k

/-- Two lists with equal lengths and getD profiles are equal. -/
theorem list_eq_of_getD (l1 l2 : List F) (hlen : l1.length = l2.length)
    (h : ∀ t, l1.getD t 0 = l2.getD t 0) : l1 = l2 := by
  apply List.ext_getElem hlen
  intro i h1 h2
  have hi := h i
  rw [getD_of_lt _ _ h1, getD_of_lt _ _ h2] at hi
  exact hi

/-- Low half of the radix-2 butterfly: splitting a double-length power sum
into even- and odd-indexed halves. -/
theorem butterfly_low (v : ℕ → F) (r : F) (n j : ℕ) :
    ∑ t in Finset.range (2 * n), v t * r ^ (t * j) =
      (∑ t in Finset.range n, v (2 * t) * (r ^ 2) ^ (t * j)) +
      (∑ t in Finset.range n, v (2 * t + 1) * (r ^ 2) ^ (t * j)) * r ^ j := by
  rw [sum_range_double]
  congr 1
  · apply Finset.sum_congr rfl
    intro t _
    congr 1
    rw [← pow_mul]
    congr 1
    ring
  · rw [Finset.sum_mul]
    apply Finset.sum_congr rfl
    intro t _
    rw [show (2 * t + 1) * j = 2 * (t * j) + j from by ring, pow_add, ← pow_mul]
    ring

/-- High half of the radix-2 butterfly: shifting the evaluation index by n
flips the sign of the odd half, using r^(2n) = 1 and r^n = -1. -/
theorem butterfly_high (v : ℕ → F) (r : F) (n j : ℕ) (hr : r ^ (2 * n) = 1)
    (hneg : r ^ n = -1) :
    ∑ t in Finset.range (2 * n), v t * r ^ (t * (n + j)) =
      (∑ t in Finset.range n, v (2 * t) * (r ^ 2) ^ (t * j)) -
      (∑ t in Finset.range n, v (2 * t + 1) * (r ^ 2) ^ (t * j)) * r ^ j := by
  rw [sum_range_double]
  have heven : ∀ t : ℕ, r ^ (2 * t * (n + j)) = (r ^ 2) ^ (t * j) := by
    intro t
    rw [show 2 * t * (n + j) = 2 * n * t + 2 * (t * j) from by ring, pow_add,
      pow_mul, hr, one_pow, one_mul, pow_mul]
  have hodd : ∀ t : ℕ, r ^ ((2 * t + 1) * (n + j)) = -((r ^ 2) ^ (t * j) * r ^ j) := by
    intro t
    rw [show (2 * t + 1) * (n + j) = 2 * n * t + (2 * (t * j) + (n + j)) from by ring]
    rw [pow_add, pow_mul, hr, one_pow, one_mul, pow_add, pow_add, hneg, pow_mul]
    ring
  rw [sub_eq_add_neg]
  congr 1
  · apply Finset.sum_congr rfl
    intro t _
    rw [heven]
  · calc ∑ t in Finset.range n, v (2 * t + 1) * r ^ ((2 * t + 1) * (n + j))
        = ∑ t in Finset.range n, -(v (2 * t + 1) * (r ^ 2) ^ (t * j) * r ^ j) := by
          apply Finset.sum_congr rfl
          intro t _
          rw [hodd]
          ring
      _ = -∑ t in Finset.range n, v (2 * t + 1) * (r ^ 2) ^ (t * j) * r ^ j := by
          rw [Finset.sum_neg_distrib]
      _ = -((∑ t in Finset.range n, v (2 * t + 1) * (r ^ 2) ^ (t * j)) * r ^ j) := by
          rw [Finset.sum_mul]

/-- The recursive _fft computes the discrete Fourier transform: with root
list 1, r, r², ... of length 2^k (r of order 2^k), output j is the power
sum of the inputs at r^j, for any fuel at least the recursion depth. -/
theorem fftRecFuel_dft : ∀ (k fuel : ℕ), k ≤ fuel → ∀ (r : F), r ^ (2 ^ k) = 1 →
    (1 ≤ k → r ^ (2 ^ (k - 1)) = -1) →
    ∀ (vals roots : List F), vals.length = 2 ^ k →
      roots = List.ofFn (fun t : Fin (2 ^ k) => r ^ (t : ℕ)) →
      fftRecFuel fuel vals roots =
        List.ofFn (fun j : Fin (2 ^ k) =>
          ∑ t in Finset.range (2 ^ k), vals.getD t 0 * r ^ (t * (j : ℕ))) := by
  intro k
  induction k with
  | zero =>
      intro fuel _ r hr _ vals roots hlen hroots
      obtain ⟨v, hv⟩ : ∃ v, vals = [v] := by
        cases vals with
        | nil => simp at hlen
        | cons a t =>
            cases t with
            | nil => exact ⟨a, rfl⟩
            | cons b t2 =>
                rw [show (a :: b :: t2).length = t2.length + 2 from rfl] at hlen
                simp at hlen
      subst hv
      have hout : fftRecFuel fuel [v] roots = [v] := by
        cases fuel with
        | zero => rfl
        | succ f => rfl
      rw [hout]
      apply list_eq_of_getD
      · simp
      · intro t
        rw [getD_ofFn]
        cases t with
        | zero => simp
        | succ t =>
            rw [dif_neg (by omega), getD_of_le [v] (t + 1) (by simp)]
  | succ k ih =>
      intro fuel hfuel r hr hneg vals roots hlen hroots
      obtain ⟨f, rfl⟩ : ∃ f, fuel = f + 1 := ⟨fuel - 1, by omega⟩
      have hk2 : (2 : ℕ) ^ (k + 1) = 2 * 2 ^ k := by rw [pow_succ]; ring
      have hpos : 0 < (2 : ℕ) ^ k := Nat.pos_pow_of_pos k (by norm_num)
      have hlen1 : ¬ vals.length = 1 := by rw [hlen, hk2]; omega
      have hnegk : r ^ (2 ^ k) = -1 := by
        have h1 := hneg (by omega)
        rwa [Nat.add_sub_cancel] at h1
      have hr' : r ^ (2 * 2 ^ k) = 1 := by rw [← hk2]; exact hr
      have hroots2 : evens roots = List.ofFn (fun t : Fin (2 ^ k) => (r ^ 2) ^ (t : ℕ)) := by
        apply list_eq_of_getD
        · rw [evens_length, hroots, List.length_ofFn, List.length_ofFn, hk2]
          omega
        · intro t
          rw [evens_getD, hroots, getD_ofFn, getD_ofFn]
          by_cases htk : t < 2 ^ k
          · rw [dif_pos (show 2 * t < 2 ^ (k + 1) from by omega), dif_pos htk]
            show r ^ (2 * t) = (r ^ 2) ^ t
            rw [← pow_mul]
          · rw [dif_neg (show ¬ 2 * t < 2 ^ (k + 1) from by omega), dif_neg htk]
      have hev : (evens vals).length = 2 ^ k := by
        rw [evens_length, hlen, hk2]
        omega
      have hod : (evens (vals.drop 1)).length = 2 ^ k := by
        rw [evens_length, List.length_drop, hlen, hk2]
        omega
      have hr2 : (r ^ 2) ^ (2 ^ k) = 1 := by
        rw [← pow_mul, ← hk2]
        exact hr
      have hneg2 : 1 ≤ k → (r ^ 2) ^ (2 ^ (k - 1)) = -1 := by
        intro hk1
        rw [← pow_mul]
        rw [show 2 * 2 ^ (k - 1) = 2 ^ k from by
          rw [← pow_succ']
          congr 1
          omega]
        exact hnegk
      have hLval := ih f (by omega) (r ^ 2) hr2 hneg2 (evens vals) (evens roots) hev hroots2
      have hRval := ih f (by omega) (r ^ 2) hr2 hneg2 (evens (vals.drop 1)) (evens roots)
        hod hroots2
      have hstep : fftRecFuel (f + 1) vals roots =
          (List.range vals.length).map (fun idx =>
            if idx < min (fftRecFuel f (evens vals) (evens roots)).length
                (fftRecFuel f (evens (vals.drop 1)) (evens roots)).length then
              (fftRecFuel f (evens vals) (evens roots)).getD idx 0 +
                (fftRecFuel f (evens (vals.drop 1)) (evens roots)).getD idx 0 *
                  roots.getD idx 0
            else if (fftRecFuel f (evens vals) (evens roots)).length ≤ idx ∧
                idx - (fftRecFuel f (evens vals) (evens roots)).length <
                  min (fftRecFuel f (evens vals) (evens roots)).length
                    (fftRecFuel f (evens (vals.drop 1)) (evens roots)).length then
              (fftRecFuel f (evens vals) (evens roots)).getD
                  (idx - (fftRecFuel f (evens vals) (evens roots)).length) 0 -
                (fftRecFuel f (evens (vals.drop 1)) (evens roots)).getD
                    (idx - (fftRecFuel f (evens vals) (evens roots)).length) 0 *
                  roots.getD (idx - (fftRecFuel f (evens vals) (evens roots)).length) 0
            else 0) := by
        show (if vals.length = 1 then vals else _) = _
        rw [if_neg hlen1]
      rw [hstep]
      have hLlen : (fftRecFuel f (evens vals) (evens roots)).length = 2 ^ k := by
        rw [hLval, List.length_ofFn]
      have hRlen : (fftRecFuel f (evens (vals.drop 1)) (evens roots)).length = 2 ^ k := by
        rw [hRval, List.length_ofFn]
      apply list_eq_of_getD
      · rw [List.length_map, List.length_range, List.length_ofFn, hlen]
      · intro idx
        rw [getD_rangeMap, getD_ofFn, hlen]
        by_cases hidx : idx < 2 ^ (k + 1)
        · rw [if_pos hidx, dif_pos hidx]
          rw [hLlen, hRlen, Nat.min_self]
          show _ = ∑ t in Finset.range (2 ^ (k + 1)), vals.getD t 0 * r ^ (t * idx)
          by_cases hlow : idx < 2 ^ k
          · rw [if_pos hlow]
            rw [hk2, butterfly_low (fun t => vals.getD t 0) r (2 ^ k) idx]
            have hLv : (fftRecFuel f (evens vals) (evens roots)).getD idx 0 =
                ∑ t in Finset.range (2 ^ k), vals.getD (2 * t) 0 * (r ^ 2) ^ (t * idx) := by
              rw [hLval, getD_ofFn, dif_pos hlow]
              apply Finset.sum_congr rfl
              intro t _
              rw [evens_getD]
            have hRv : (fftRecFuel f (evens (vals.drop 1)) (evens roots)).getD idx 0 =
                ∑ t in Finset.range (2 ^ k), vals.getD (2 * t + 1) 0 * (r ^ 2) ^ (t * idx) := by
              rw [hRval, getD_ofFn, dif_pos hlow]
              apply Finset.sum_congr rfl
              intro t _
              rw [evens_getD, getD_drop]
              congr 2
              omega
            rw [hLv, hRv, hroots, getD_ofFn, dif_pos hidx]
          · rw [if_neg hlow, if_pos (by omega : 2 ^ k ≤ idx ∧ idx - 2 ^ k < 2 ^ k)]
            have hidx2 : idx = 2 ^ k + (idx - 2 ^ k) := by omega
            have htarget : ∑ t in Finset.range (2 ^ (k + 1)), vals.getD t 0 * r ^ (t * idx) =
                ∑ t in Finset.range (2 * 2 ^ k),
                  vals.getD t 0 * r ^ (t * (2 ^ k + (idx - 2 ^ k))) := by
              rw [← hk2, ← hidx2]
            rw [htarget, butterfly_high (fun t => vals.getD t 0) r (2 ^ k) (idx - 2 ^ k)
              hr' hnegk]
            have hsub : idx - 2 ^ k < 2 ^ k := by omega
            have hLv : (fftRecFuel f (evens vals) (evens roots)).getD (idx - 2 ^ k) 0 =
                ∑ t in Finset.range (2 ^ k),
                  vals.getD (2 * t) 0 * (r ^ 2) ^ (t * (idx - 2 ^ k)) := by
              rw [hLval, getD_ofFn, dif_pos hsub]
              apply Finset.sum_congr rfl
              intro t _
              rw [evens_getD]
            have hRv : (fftRecFuel f (evens (vals.drop 1)) (evens roots)).getD
                (idx - 2 ^ k) 0 =
                ∑ t in Finset.range (2 ^ k),
                  vals.getD (2 * t + 1) 0 * (r ^ 2) ^ (t * (idx - 2 ^ k)) := by
              rw [hRval, getD_ofFn, dif_pos hsub]
              apply Finset.sum_congr rfl
              intro t _
              rw [evens_getD, getD_drop]
              congr 2
              omega
            rw [hLv, hRv, hroots, getD_ofFn, dif_pos (show idx - 2 ^ k < 2 ^ (k + 1) from by omega)]
        · rw [if_neg hidx, dif_neg hidx]


/-- Powers of the inverse root are complementary powers of the root. -/
theorem inv_pow_eq (ω : F) (n t : ℕ) (hω : ω ^ n = 1) (hne : ω ≠ 0) (ht : t ≤ n) :
    ω⁻¹ ^ t = ω ^ (n - t) := by
  have htn : ω ^ t ≠ 0 := pow_ne_zero t hne
  apply mul_right_cancel₀ htn
  rw [← mul_pow, inv_mul_cancel₀ hne, one_pow, ← pow_add, Nat.sub_add_cancel ht, hω]

/-- A root of X^n = 1 is nonzero (n positive). -/
theorem root_ne_zero (ω : F) (n : ℕ) (hω : ω ^ n = 1) (hn : 1 ≤ n) : ω ≠ 0 := by
  intro hcon
  rw [hcon, zero_pow (by omega : n ≠ 0)] at hω
  exact zero_ne_one hω

/-- The reversed root sequence used by the inverse FFT is the power
sequence of the inverse root. -/
theorem reversedRoots_eq (ω : F) (n : ℕ) (hω : ω ^ n = 1) (hn : 1 ≤ n) :
    (rootsOfUnity ω n).take 1 ++ ((rootsOfUnity ω n).drop 1).reverse =
      List.ofFn (fun t : Fin n => ω⁻¹ ^ (t : ℕ)) := by
  have hne : ω ≠ 0 := root_ne_zero ω n hω hn
  have hlen : (rootsOfUnity ω n).length = n := List.length_ofFn _
  apply list_eq_of_getD
  · rw [List.length_append, List.length_take, List.length_reverse, List.length_drop,
      hlen, List.length_ofFn]
    omega
  · intro t
    have htake1 : ((rootsOfUnity ω n).take 1).length = 1 := by
      rw [List.length_take, hlen]
      omega
    rw [getD_ofFn]
    by_cases htn : t < n
    · rw [dif_pos htn]
      cases t with
      | zero =>
          rw [getD_append_left _ _ _ (by rw [htake1]; omega), getD_take,
            if_pos (by omega : (0 : ℕ) < 1)]
          show (rootsOfUnity ω n).getD 0 0 = ω⁻¹ ^ 0
          unfold rootsOfUnity
          rw [getD_ofFn, dif_pos (by omega : 0 < n)]
          simp
      | succ t =>
          rw [getD_append_right _ _ _ (by rw [htake1]; omega), htake1]
          have hrevlen : (((rootsOfUnity ω n).drop 1).reverse).length = n - 1 := by
            rw [List.length_reverse, List.length_drop, hlen]
          have hrev : (((rootsOfUnity ω n).drop 1).reverse).getD (t + 1 - 1) 0 =
              ((rootsOfUnity ω n).drop 1).getD (n - 1 - 1 - t) 0 := by
            rw [getD_eq, getD_eq, List.getElem?_reverse
              (by rw [List.length_drop, hlen]; omega)]
            congr 2
            rw [List.length_drop, hlen]
            omega
          rw [hrev, getD_drop]
          unfold rootsOfUnity
          rw [getD_ofFn, dif_pos (by omega : 1 + (n - 1 - 1 - t) < n)]
          show ω ^ (1 + (n - 1 - 1 - t)) = ω⁻¹ ^ (t + 1)
          rw [inv_pow_eq ω n (t + 1) hω hne (by omega)]
          congr 1
          omega
    · rw [dif_neg htn]
      refine getD_of_le _ _ ?_
      rw [List.length_append, List.length_take, List.length_reverse, List.length_drop, hlen]
      omega

/-- A primitive 2^k-th root with k positive has -1 at its half order. -/
theorem prim_root_half (ω : F) (k : ℕ) (hω : IsPrimitiveRoot ω (2 ^ k)) (hk : 1 ≤ k) :
    ω ^ (2 ^ (k - 1)) = -1 := by
  have hsq : (ω ^ (2 ^ (k - 1))) ^ 2 = 1 := by
    rw [← pow_mul]
    rw [show 2 ^ (k - 1) * 2 = 2 ^ k from by
      rw [← pow_succ]
      congr 1
      omega]
    exact hω.pow_eq_one
  have hfac : (ω ^ (2 ^ (k - 1)) - 1) * (ω ^ (2 ^ (k - 1)) + 1) = 0 := by
    have h1 : (ω ^ (2 ^ (k - 1))) ^ 2 - 1 = 0 := by rw [hsq]; ring
    calc (ω ^ (2 ^ (k - 1)) - 1) * (ω ^ (2 ^ (k - 1)) + 1)
        = (ω ^ (2 ^ (k - 1))) ^ 2 - 1 := by ring
      _ = 0 := h1
  rcases mul_eq_zero.1 hfac with h | h
  · exfalso
    have := hω.pow_ne_one_of_pos_of_lt (Nat.pos_pow_of_pos (k - 1) (by norm_num))
      (Nat.pow_lt_pow_right (by norm_num) (by omega))
    exact this (sub_eq_zero.1 h)
  · exact eq_neg_of_add_eq_zero_left h


/-- Forward fft on a MONOMIAL polynomial of power-of-two length over a
primitive root of that order: the output values are the evaluations at the
successive root powers. -/
theorem fft_forward_spec (ω : F) (k : ℕ) (p : Poly F) (hb : p.basis = Basis.MONOMIAL)
    (hl : p.values.length = 2 ^ k) (hω : IsPrimitiveRoot ω (2 ^ k)) :
    p.fft ω false = some ⟨List.ofFn (fun j : Fin (2 ^ k) =>
      ∑ t in Finset.range (2 ^ k), p.values.getD t 0 * ω ^ (t * (j : ℕ))),
      Basis.LAGRANGE⟩ := by
  have hstep : p.fft ω false =
      if p.basis = Basis.MONOMIAL then
        some ⟨fftRec p.values (rootsOfUnity ω p.values.length), Basis.LAGRANGE⟩
      else none := rfl
  rw [hstep, if_pos hb]
  congr 2
  unfold fftRec
  rw [hl]
  exact fftRecFuel_dft k (2 ^ k) (Nat.le_of_lt (Nat.lt_two_pow k)) ω hω.pow_eq_one
    (prim_root_half ω k hω) p.values (rootsOfUnity ω (2 ^ k)) hl rfl

/-- Inverse fft on a LAGRANGE polynomial of power-of-two length: the output
coefficients are the inverse-root power sums scaled by the inverse length. -/
theorem ifft_spec (ω : F) (k : ℕ) (p : Poly F) (hb : p.basis = Basis.LAGRANGE)
    (hl : p.values.length = 2 ^ k) (hω : IsPrimitiveRoot ω (2 ^ k)) :
    p.ifft ω = some ⟨(List.ofFn (fun j : Fin (2 ^ k) =>
      ∑ t in Finset.range (2 ^ k), p.values.getD t 0 * (ω⁻¹) ^ (t * (j : ℕ)))).map
        (fun x => x * ((1 : F) / ((2 ^ k : ℕ) : F))), Basis.MONOMIAL⟩ := by
  have hstep : p.ifft ω =
      if p.basis = Basis.LAGRANGE then
        some ⟨(fftRec p.values ((rootsOfUnity ω p.values.length).take 1 ++
            ((rootsOfUnity ω p.values.length).drop 1).reverse)).map
          (fun x => x * ((1 : F) / (p.values.length : F))), Basis.MONOMIAL⟩
      else none := rfl
  rw [hstep, if_pos hb]
  have hpos : 1 ≤ (2 : ℕ) ^ k := Nat.pos_pow_of_pos k (by norm_num)
  have hrev : (rootsOfUnity ω p.values.length).take 1 ++
      ((rootsOfUnity ω p.values.length).drop 1).reverse =
      List.ofFn (fun t : Fin (2 ^ k) => ω⁻¹ ^ (t : ℕ)) := by
    rw [hl]
    exact reversedRoots_eq ω (2 ^ k) hω.pow_eq_one hpos
  have hωinv : ω⁻¹ ^ (2 ^ k) = 1 := by
    rw [inv_pow, hω.pow_eq_one, inv_one]
  have hωneg : 1 ≤ k → ω⁻¹ ^ (2 ^ (k - 1)) = -1 := by
    intro hk
    rw [inv_pow, prim_root_half ω k hω hk, inv_neg, inv_one]
  congr 2
  rw [hrev]
  unfold fftRec
  rw [hl]
  exact congrArg _ (fftRecFuel_dft k (2 ^ k) (Nat.le_of_lt (Nat.lt_two_pow k)) ω⁻¹ hωinv
    hωneg p.values _ hl rfl)


/-- Orthogonality of the DFT characters: summing the product of forward
and inverse root powers over a full period gives n on the diagonal and 0
elsewhere. -/
theorem dft_orthogonality (ω : F) (n : ℕ) (hω : IsPrimitiveRoot ω n) (t m : ℕ)
    (ht : t < n) (hm : m < n) :
    ∑ j in Finset.range n, ω ^ (t * j) * ω⁻¹ ^ (j * m) = if t = m then (n : F) else 0 := by
  have hne : ω ≠ 0 := hω.ne_zero (by omega)
  have hterm : ∀ j : ℕ, ω ^ (t * j) * ω⁻¹ ^ (j * m) = (ω ^ t * (ω ^ m)⁻¹) ^ j := by
    intro j
    rw [mul_pow, ← pow_mul, ← inv_pow, ← pow_mul, mul_comm j m]
  rw [Finset.sum_congr rfl (fun j _ => hterm j)]
  by_cases htm : t = m
  · subst htm
    rw [if_pos rfl, mul_inv_cancel₀ (pow_ne_zero t hne)]
    simp
  · rw [if_neg htm]
    have hx1 : ω ^ t * (ω ^ m)⁻¹ ≠ 1 := by
      intro hcon
      rw [mul_inv_eq_one₀ (pow_ne_zero m hne)] at hcon
      exact htm (hω.pow_inj ht hm hcon)
    have hxn : (ω ^ t * (ω ^ m)⁻¹) ^ n = 1 := by
      rw [mul_pow, ← pow_mul, mul_comm t n, pow_mul, hω.pow_eq_one, one_pow, one_mul,
        inv_pow, ← pow_mul, mul_comm m n, pow_mul, hω.pow_eq_one, one_pow, inv_one]
    have hgeom := geom_sum_mul (ω ^ t * (ω ^ m)⁻¹) n
    rw [hxn, sub_self] at hgeom
    rcases mul_eq_zero.1 hgeom with h | h
    · exact h
    · exact absurd (sub_eq_zero.1 h) hx1

/-- C2: the inverse FFT undoes the forward FFT: for a MONOMIAL polynomial
of power-of-two length, over a primitive root of that order with the
length invertible in the field, ifft(fft(p)) returns p itself, with the
same basis tag and value sequence. -/
theorem claim_C2_fft_roundtrip (ω : F) (k : ℕ) (p : Poly F) (hb : p.basis = Basis.MONOMIAL)
    (hl : p.values.length = 2 ^ k) (hω : IsPrimitiveRoot ω (2 ^ k))
    (hn : ((2 ^ k : ℕ) : F) ≠ 0) :
    ∃ w, p.fft ω false = some w ∧ w.ifft ω = some p := by
  refine ⟨_, fft_forward_spec ω k p hb hl hω, ?_⟩
  rw [ifft_spec ω k _ rfl (by simp) hω]
  obtain ⟨pv, pb⟩ := p
  subst hb
  congr 1
  congr 1
  apply list_eq_of_getD
  · rw [List.length_map, List.length_ofFn]
    exact hl.symm
  · intro s
    by_cases hs : s < 2 ^ k
    · have hs2 : s < (List.ofFn (fun j : Fin (2 ^ k) =>
          ∑ t in Finset.range (2 ^ k),
            (List.ofFn (fun j2 : Fin (2 ^ k) => ∑ t2 in Finset.range (2 ^ k),
              pv.getD t2 0 * ω ^ (t2 * (j2 : ℕ)))).getD t 0 *
              ω⁻¹ ^ (t * (j : ℕ)))).length := by
        rw [List.length_ofFn]
        exact hs
      rw [getD_map _ _ _ hs2, getD_ofFn, dif_pos hs]
      have hswap1 : ∀ j, j < 2 ^ k →
          (List.ofFn (fun j2 : Fin (2 ^ k) => ∑ t2 in Finset.range (2 ^ k),
            pv.getD t2 0 * ω ^ (t2 * (j2 : ℕ)))).getD j 0 * ω⁻¹ ^ (j * s) =
          ∑ t2 in Finset.range (2 ^ k), pv.getD t2 0 * ω ^ (t2 * j) * ω⁻¹ ^ (j * s) := by
        intro j hj
        rw [getD_ofFn, dif_pos hj, Finset.sum_mul]
      have hswap2 : ∀ t2 : ℕ, ∑ j in Finset.range (2 ^ k),
          pv.getD t2 0 * ω ^ (t2 * j) * ω⁻¹ ^ (j * s) =
          pv.getD t2 0 * ∑ j in Finset.range (2 ^ k), ω ^ (t2 * j) * ω⁻¹ ^ (j * s) := by
        intro t2
        rw [Finset.mul_sum]
        apply Finset.sum_congr rfl
        intro j _
        ring
      rw [show (⟨s, hs⟩ : Fin (2 ^ k)).val = s from rfl]
      rw [Finset.sum_congr rfl (fun j hj => hswap1 j (Finset.mem_range.1 hj)),
        Finset.sum_comm,
        Finset.sum_congr rfl (fun t2 _ => hswap2 t2)]
      have horth : ∀ t2 ∈ Finset.range (2 ^ k), pv.getD t2 0 *
          ∑ j in Finset.range (2 ^ k), ω ^ (t2 * j) * ω⁻¹ ^ (j * s) =
          pv.getD t2 0 * (if t2 = s then ((2 ^ k : ℕ) : F) else 0) := by
        intro t2 ht2
        rw [dft_orthogonality ω (2 ^ k) hω t2 s (Finset.mem_range.1 ht2) hs]
      rw [Finset.sum_congr rfl horth]
      have hite : ∀ t2 : ℕ, pv.getD t2 0 * (if t2 = s then ((2 ^ k : ℕ) : F) else 0) =
          if t2 = s then pv.getD t2 0 * ((2 ^ k : ℕ) : F) else 0 := by
        intro t2
        by_cases h : t2 = s
        · rw [if_pos h, if_pos h]
        · rw [if_neg h, if_neg h, mul_zero]
      rw [Finset.sum_congr rfl (fun t2 _ => hite t2), Finset.sum_ite_eq',
        if_pos (Finset.mem_range.2 hs)]
      rw [mul_assoc, mul_one_div, div_self hn, mul_one]
    · have hpl : pv.length = 2 ^ k := hl
      rw [getD_of_le pv s (by omega)]
      refine getD_of_le _ s ?_
      rw [List.length_map, List.length_ofFn]
      omega


/-- The canonical generator 2 of the order-4 subgroup of the toy field
ZMod 5 is a primitive fourth root of unity. -/
theorem isPrimitiveRoot_two_four : IsPrimitiveRoot (2 : ZMod 5) (4 : ℕ) := by
  rw [IsPrimitiveRoot.iff_def]
  refine ⟨by decide, ?_⟩
  intro l hl
  have h16 : (2 : ZMod 5) ^ (4 : ℕ) = 1 := by decide
  have hdecomp : l = 4 * (l / 4) + l % 4 := (Nat.div_add_mod l 4).symm
  have hpow : (2 : ZMod 5) ^ l = 2 ^ (l % 4) := by
    conv_lhs => rw [hdecomp]
    rw [pow_add, pow_mul, h16, one_pow, one_mul]
  rw [hpow] at hl
  have hcase : l % 4 = 0 ∨ l % 4 = 1 ∨ l % 4 = 2 ∨ l % 4 = 3 := by omega
  rcases hcase with h | h | h | h
  · exact Nat.dvd_of_mod_eq_zero h
  all_goals rw [h] at hl
  all_goals exact absurd hl (by decide)

/-- Witness for C2 over the toy field: the round trip on [1,2,3,4]. -/
theorem claim_C2_fft_roundtrip_witness :
    ∃ w, Poly.fft (2 : ZMod 5) ⟨[1,2,3,4], Basis.MONOMIAL⟩ false = some w ∧
      Poly.ifft (2 : ZMod 5) w = some ⟨[1,2,3,4], Basis.MONOMIAL⟩ :=
  claim_C2_fft_roundtrip (2 : ZMod 5) 2 ⟨[1,2,3,4], Basis.MONOMIAL⟩ rfl rfl
    isPrimitiveRoot_two_four (by decide)

/-- The domain root list is duplicate-free for a primitive root. -/
theorem rootsOfUnity_nodup (ω : F) (n : ℕ) (hω : IsPrimitiveRoot ω n) :
    (rootsOfUnity ω n).Nodup := by
  unfold rootsOfUnity
  rw [List.nodup_ofFn]
  intro a b hab
  exact Fin.ext (hω.pow_inj a.isLt b.isLt hab)

/-- C4: barycentric_eval at the i-th domain root takes the direct-lookup
branch (the root is a member of the domain list) and returns the stored
value at index i. -/
theorem claim_C4_barycentric_domain_root (ω : F) (p : Poly F)
    (hb : p.basis = Basis.LAGRANGE) (hω : IsPrimitiveRoot ω p.values.length)
    (i : ℕ) (hi : i < p.values.length) :
    (ω ^ i) ∈ rootsOfUnity ω p.values.length ∧
    p.barycentric_eval ω (ω ^ i) = some (p.values.getD i 0) := by
  have hmem : ω ^ i ∈ rootsOfUnity ω p.values.length := by
    unfold rootsOfUnity
    rw [List.mem_ofFn]
    exact ⟨⟨i, hi⟩, rfl⟩
  refine ⟨hmem, ?_⟩
  have hlen : (rootsOfUnity ω p.values.length).length = p.values.length :=
    List.length_ofFn _
  have hidxlt : (rootsOfUnity ω p.values.length).indexOf (ω ^ i) <
      (rootsOfUnity ω p.values.length).length := List.indexOf_lt_length.2 hmem
  have hidx : (rootsOfUnity ω p.values.length).indexOf (ω ^ i) = i := by
    have hget := List.indexOf_get hidxlt
    have hgeti : (rootsOfUnity ω p.values.length).get ⟨i, by rw [hlen]; exact hi⟩ =
        ω ^ i := by
      unfold rootsOfUnity
      rw [List.get_ofFn]
      rfl
    have hinj := (List.Nodup.get_inj_iff (rootsOfUnity_nodup ω p.values.length hω)).1
      (hget.trans hgeti.symm)
    exact congrArg Fin.val hinj
  simp only [Poly.barycentric_eval, hb]
  rw [if_neg (by simp), if_pos hmem, hidx]

/-- Witness for C4: the third domain root of the toy field. -/
theorem claim_C4_barycentric_domain_root_witness :
    ((2 : ZMod 5) ^ 2) ∈ rootsOfUnity (2 : ZMod 5) ([1,2,3,4] : List (ZMod 5)).length ∧
    Poly.barycentric_eval (2 : ZMod 5) ⟨[1,2,3,4], Basis.LAGRANGE⟩ ((2 : ZMod 5) ^ 2) =
      some (([1,2,3,4] : List (ZMod 5)).getD 2 0) :=
  claim_C4_barycentric_domain_root (2 : ZMod 5) ⟨[1,2,3,4], Basis.LAGRANGE⟩ rfl
    isPrimitiveRoot_two_four 2 (by decide)

/-- Sum of a zipWith as an indexed sum over the common length. -/
theorem sum_zipWith (g : F → F → F) : ∀ (l1 l2 : List F),
    (List.zipWith g l1 l2).sum =
      ∑ j in Finset.range (min l1.length l2.length), g (l1.getD j 0) (l2.getD j 0)
  | [], l2 => by simp
  | a :: t1, [] => by simp
  | a :: t1, b :: t2 => by
      rw [List.zipWith_cons_cons, List.sum_cons, sum_zipWith g t1 t2]
      rw [show min (a :: t1).length (b :: t2).length = min t1.length t2.length + 1 from by
        rw [List.length_cons, List.length_cons, Nat.succ_min_succ]]
      rw [Finset.sum_range_succ']
      simp only [List.getD_cons_succ, List.getD_cons_zero]
      ring

/-- The j-th entry of the evaluation domain is the j-th power of the root. -/
theorem rootsOfUnity_getD (ω : F) (n j : ℕ) (hj : j < n) :
    (rootsOfUnity ω n).getD j 0 = ω ^ j := by
  unfold rootsOfUnity
  rw [getD_ofFn, dif_pos hj]

/-- C5: barycentric evaluation of a LAGRANGE polynomial of power-of-two
length at a point x outside the evaluation domain agrees with converting
to MONOMIAL basis via ifft and evaluating with coeff_eval. -/
theorem claim_C5_barycentric_cross_check (ω : F) (k : ℕ) (p : Poly F)
    (hb : p.basis = Basis.LAGRANGE) (hl : p.values.length = 2 ^ k)
    (hω : IsPrimitiveRoot ω (2 ^ k)) (hn : ((2 ^ k : ℕ) : F) ≠ 0)
    (x : F) (hx : x ∉ rootsOfUnity ω p.values.length) :
    ∃ q v, p.ifft ω = some q ∧ p.barycentric_eval ω x = some v ∧
      q.coeff_eval x = some v := by
  have hne : ω ≠ 0 := hω.ne_zero (by positivity)
  obtain ⟨pv, pb⟩ := p
  have hpl : pv.length = 2 ^ k := hl
  have hb' : pb = Basis.LAGRANGE := hb
  subst hb'
  have hx' : x ∉ rootsOfUnity ω pv.length := hx
  have hxr : ∀ j, j < 2 ^ k → x ≠ ω ^ j := by
    intro j hj hcon
    apply hx'
    rw [hpl]
    unfold rootsOfUnity
    rw [List.mem_ofFn]
    exact ⟨⟨j, hj⟩, hcon.symm⟩
  have hωinv : ω⁻¹ ^ (2 ^ k) = 1 := by
    rw [inv_pow, hω.pow_eq_one, inv_one]
  have hgeo : ∀ j, j < 2 ^ k → ∑ m in Finset.range (2 ^ k), (ω⁻¹ ^ j * x) ^ m =
      (x ^ 2 ^ k - 1) * ω ^ j / (x - ω ^ j) := by
    intro j hj
    have hωj : ω ^ j ≠ 0 := pow_ne_zero j hne
    have hxj : x - ω ^ j ≠ 0 := sub_ne_zero.2 (hxr j hj)
    have ht1 : ω⁻¹ ^ j * x ≠ 1 := by
      rw [inv_pow]
      intro hcon
      rw [inv_mul_eq_one₀ hωj] at hcon
      exact hxr j hj hcon.symm
    rw [geom_sum_eq ht1]
    have htn : (ω⁻¹ ^ j * x) ^ 2 ^ k = x ^ 2 ^ k := by
      rw [mul_pow, ← pow_mul, mul_comm j (2 ^ k), pow_mul, hωinv, one_pow, one_mul]
    rw [htn]
    have hden : ω⁻¹ ^ j * x - 1 = (x - ω ^ j) / ω ^ j := by
      rw [inv_pow]
      field_simp
    rw [hden, div_div_eq_mul_div]
  refine ⟨_, (x ^ pv.length - 1) / ((pv.length : ℕ) : F) *
      (List.zipWith (fun v r => v * r / (x - r)) pv (rootsOfUnity ω pv.length)).sum,
    ifft_spec ω k ⟨pv, Basis.LAGRANGE⟩ rfl hl hω, ?_, ?_⟩
  · simp only [Poly.barycentric_eval]
    rw [if_neg (by simp), if_neg hx']
  · have hval : (⟨pv, Basis.LAGRANGE⟩ : Poly F).values = pv := rfl
    simp only [hval]
    have hqne : ((List.ofFn (fun j : Fin (2 ^ k) =>
        ∑ t in Finset.range (2 ^ k), pv.getD t 0 * (ω⁻¹) ^ (t * (j : ℕ)))).map
        (fun y => y * ((1 : F) / ((2 ^ k : ℕ) : F)))) ≠ [] := by
      intro hcon
      have hlen := congrArg List.length hcon
      rw [List.length_map, List.length_ofFn, List.length_nil] at hlen
      have hpos : (0 : ℕ) < 2 ^ k := by positivity
      omega
    rw [coeff_eval_spec _ hqne x]
    congr 1
    rw [toP_eval, List.length_map, List.length_ofFn]
    have hterm : ∀ m ∈ Finset.range (2 ^ k),
        ((List.ofFn (fun j : Fin (2 ^ k) =>
          ∑ t in Finset.range (2 ^ k), pv.getD t 0 * (ω⁻¹) ^ (t * (j : ℕ)))).map
            (fun y => y * ((1 : F) / ((2 ^ k : ℕ) : F)))).getD m 0 * x ^ m =
        ∑ j in Finset.range (2 ^ k),
          pv.getD j 0 * (ω⁻¹ ^ j * x) ^ m * ((1 : F) / ((2 ^ k : ℕ) : F)) := by
      intro m hm
      have hm' := Finset.mem_range.1 hm
      have hm2 : m < (List.ofFn (fun j : Fin (2 ^ k) =>
          ∑ t in Finset.range (2 ^ k), pv.getD t 0 * (ω⁻¹) ^ (t * (j : ℕ)))).length := by
        rw [List.length_ofFn]
        exact hm'
      rw [getD_map _ _ _ hm2]
      show ((List.ofFn (fun j : Fin (2 ^ k) =>
          ∑ t in Finset.range (2 ^ k), pv.getD t 0 * (ω⁻¹) ^ (t * (j : ℕ)))).getD m 0) *
          ((1 : F) / ((2 ^ k : ℕ) : F)) * x ^ m = _
      rw [getD_ofFn, dif_pos hm']
      show (∑ t in Finset.range (2 ^ k), pv.getD t 0 * (ω⁻¹) ^ (t * m)) *
          ((1 : F) / ((2 ^ k : ℕ) : F)) * x ^ m = _
      rw [Finset.sum_mul, Finset.sum_mul]
      apply Finset.sum_congr rfl
      intro t _
      rw [pow_mul]
      ring
    rw [Finset.sum_congr rfl hterm, Finset.sum_comm]
    have hswap : ∀ j ∈ Finset.range (2 ^ k),
        (∑ m in Finset.range (2 ^ k),
          pv.getD j 0 * (ω⁻¹ ^ j * x) ^ m * ((1 : F) / ((2 ^ k : ℕ) : F))) =
        pv.getD j 0 * ((x ^ 2 ^ k - 1) * ω ^ j / (x - ω ^ j)) *
          ((1 : F) / ((2 ^ k : ℕ) : F)) := by
      intro j hj
      rw [← Finset.sum_mul, ← Finset.mul_sum, hgeo j (Finset.mem_range.1 hj)]
    rw [Finset.sum_congr rfl hswap]
    rw [hpl]
    have hmin : min pv.length (rootsOfUnity ω (2 ^ k)).length = 2 ^ k := by
      unfold rootsOfUnity
      rw [List.length_ofFn, hpl, Nat.min_self]
    rw [sum_zipWith, hmin, Finset.mul_sum]
    apply Finset.sum_congr rfl
    intro j hj
    have hj' := Finset.mem_range.1 hj
    show pv.getD j 0 * ((x ^ 2 ^ k - 1) * ω ^ j / (x - ω ^ j)) *
        ((1 : F) / ((2 ^ k : ℕ) : F)) =
      (x ^ 2 ^ k - 1) / ((2 ^ k : ℕ) : F) *
        (pv.getD j 0 * (rootsOfUnity ω (2 ^ k)).getD j 0 /
          (x - (rootsOfUnity ω (2 ^ k)).getD j 0))
    rw [rootsOfUnity_getD ω (2 ^ k) j hj']
    ring

/-- Witness for C5: evaluation at 0, which lies outside the domain. -/
theorem claim_C5_barycentric_cross_check_witness :
    ∃ q v, Poly.ifft (2 : ZMod 5) ⟨[1,2,3,4], Basis.LAGRANGE⟩ = some q ∧
      Poly.barycentric_eval (2 : ZMod 5) ⟨[1,2,3,4], Basis.LAGRANGE⟩ 0 = some v ∧
      Poly.coeff_eval q 0 = some v :=
  claim_C5_barycentric_cross_check (2 : ZMod 5) 2 ⟨[1,2,3,4], Basis.LAGRANGE⟩ rfl rfl
    isPrimitiveRoot_two_four (by decide) 0 (by decide)

end Lemmas

end PolyPy
